import Mathlib

/-!
Verification development for the sodian knowledge core: the in-memory
fallback paths of the vector store (`VectorStore`), the knowledge graph
(`KnowledgeGraph`), the update reconciler (`ExecutiveManager.resolveConflicts`)
and the memory consolidation engine (`MemoryConsolidation`).

Texts are modelled as `List Char`, JS numbers on the similarity/strength path
as `ℝ` (for values produced by `Math.sqrt`) and `ℚ` (for link strengths and
update payloads), `Date` values / `Date.now()` results as `Int` millisecond
timestamps supplied explicitly as a clock parameter.
-/

/-! ### Vector store: fallback embedding (`VectorStore.generateSimpleEmbedding`) -/

/-- Whitespace test for the JS regex `\s` (restricted to the ASCII whitespace
characters that occur in contents handled by the store). -/
def jsWhitespace (c : Char) : Bool :=
  c = ' ' || c = '\t' || c = '\n' || c = '\r'

/-- JS `String.prototype.split(/\s+/)` on a character list: fields between
maximal whitespace runs; a leading or trailing run contributes an empty field,
and the empty text yields the single field `[]`. -/
def splitWS : List Char → List (List Char)
  | [] => [[]]
  | c :: rest =>
    let r := splitWS rest
    if jsWhitespace c then
      match rest with
      | [] => [] :: r
      | c2 :: _ => if jsWhitespace c2 then r else [] :: r
    else
      match r with
      | h :: t => (c :: h) :: t
      | [] => [[c]]

/-- `text.toLowerCase().split(/\s+/)` from `generateSimpleEmbedding`. -/
def tokenize (text : List Char) : List (List Char) :=
  splitWS (text.map Char.toLower)

/-- One step of vocabulary building: `if (!vocab.has(word)) vocab.set(word,
vocab.size)`, the map modelled by the insertion-ordered list of its keys. -/
def dfsStep {α : Type} [DecidableEq α] (acc : List α) (w : α) : List α :=
  if w ∈ acc then acc else acc ++ [w]

/-- The vocabulary built by `generateSimpleEmbedding`'s first `forEach`:
each first-seen distinct word in order (`vocab.set(word, vocab.size)` keyed
by insertion order). -/
def distinctFirstSeen {α : Type} [DecidableEq α] (l : List α) : List α :=
  l.foldl dfsStep []

/-- `vocab.get(word)`: index of a word in the first-seen vocabulary. -/
def vocabIdx (ws : List (List Char)) (w : List Char) : Nat :=
  @List.indexOf (List Char) instBEqOfDecidableEq w (distinctFirstSeen ws)

/-- One step of count accumulation: `embedding[idx] += 1` guarded by
`idx !== undefined && idx < 100`. -/
def countStep (ws : List (List Char)) (acc : List Nat) (w : List Char) :
    List Nat :=
  let idx := vocabIdx ws w
  if idx < 100 then acc.set idx (acc.getD idx 0 + 1) else acc

/-- The count vector built by `generateSimpleEmbedding`: a zero array of
length `min(vocab.size, 100)`, then `embedding[idx] += 1` for every word
whose vocabulary index is below 100. -/
def embedCounts (ws : List (List Char)) : List Nat :=
  ws.foldl (countStep ws)
    (List.replicate (min (distinctFirstSeen ws).length 100) 0)

/-- `embedding.reduce((sum, val) => sum + val * val, 0)`. -/
noncomputable def sumSq (l : List ℝ) : ℝ :=
  l.foldl (fun s v => s + v * v) 0

open Classical in
/-- The final normalisation step of `generateSimpleEmbedding`:
`magnitude > 0 ? embedding.map(v => v / magnitude) : embedding`. -/
noncomputable def normalizeVec (v : List ℝ) : List ℝ :=
  let magnitude := Real.sqrt (sumSq v)
  if magnitude > 0 then v.map (fun x => x / magnitude) else v

/-- `VectorStore.generateSimpleEmbedding` (in-memory fallback path). -/
noncomputable def generateSimpleEmbedding (text : List Char) : List ℝ :=
  normalizeVec ((embedCounts (tokenize text)).map (Nat.cast : Nat → ℝ))

open Classical in
/-- `VectorStore.cosineSimilarity`: 0 on length mismatch, 0 when either
magnitude is 0, otherwise the dot product over the product of magnitudes. -/
noncomputable def cosineSimilarity (a b : List ℝ) : ℝ :=
  if a.length ≠ b.length then 0
  else
    let dotProduct := (List.zipWith (fun x y => x * y) a b).sum
    let magnitudeA := Real.sqrt (sumSq a)
    let magnitudeB := Real.sqrt (sumSq b)
    if magnitudeA = 0 ∨ magnitudeB = 0 then 0
    else dotProduct / (magnitudeA * magnitudeB)

/-- A document of the in-memory store (`inMemoryStore` entry): the embedding
is computed from the content on `addDocument`. -/
structure VectorDoc where
  id : String
  content : List Char
  embedding : List ℝ

/-- `VectorStore.addDocument` (in-memory branch): push content with the
fallback embedding computed from it. -/
noncomputable def addDocument (store : List VectorDoc) (id : String)
    (content : List Char) : List VectorDoc :=
  store ++ [⟨id, content, generateSimpleEmbedding content⟩]

/-- The similarity assigned to each stored document by `VectorStore.search`
(in-memory branch) before sorting and truncation. -/
noncomputable def searchSimilarities (store : List VectorDoc)
    (query : List Char) : List ℝ :=
  store.map (fun d => cosineSimilarity (generateSimpleEmbedding query) d.embedding)

/-! ### Knowledge graph store (`KnowledgeGraph`, in-memory fallback) -/

/-- `GraphNode`: node payloads (`properties`) are modelled as string maps,
matching the string-valued payloads (`folder`/`filename`/`content`/`summary`,
tag `name`) the update handlers store; `Date` fields as millisecond stamps. -/
structure GraphNode where
  id : String
  type : String
  properties : List (String × String)
  createdAt : Int
  updatedAt : Int
deriving DecidableEq

/-- `GraphLink`; `strength` is a JS number, modelled as `ℚ`. -/
structure GraphLink where
  id : String
  source : String
  target : String
  relationship : String
  strength : ℚ
  bidirectional : Bool
deriving DecidableEq

instance : Inhabited GraphLink :=
  ⟨⟨"", "", "", "", 0, false⟩⟩

/-- The in-memory store: `inMemoryNodes` is a JS `Map` (insertion-ordered
association list), `inMemoryLinks` an array. -/
structure GraphState where
  nodes : List (String × GraphNode)
  links : List GraphLink
deriving DecidableEq

/-- The store as constructed (no nodes, no links). -/
def initialGraph : GraphState := ⟨[], []⟩

/-- `Map.prototype.get`. -/
def assocLookup {κ β : Type} [DecidableEq κ] (k : κ) : List (κ × β) → Option β
  | [] => none
  | p :: ps => if p.1 = k then some p.2 else assocLookup k ps

/-- `Map.prototype.has`. -/
def assocHas {κ β : Type} [DecidableEq κ] (m : List (κ × β)) (k : κ) : Bool :=
  m.any (fun p => p.1 = k)

/-- `Map.prototype.set`: overwrite in place when the key is present
(keeping its position), append otherwise. -/
def assocSet {κ β : Type} [DecidableEq κ] (m : List (κ × β)) (k : κ) (v : β) :
    List (κ × β) :=
  if assocHas m k then m.map (fun p => if p.1 = k then (k, v) else p)
  else m ++ [(k, v)]

/-- `KnowledgeGraphUpdate`, by `type` with the payload fields the in-memory
handlers read (`action` is never inspected by the store or the reconciler). -/
inductive KGUpdate where
  | note (data : List (String × String))
  | link (source target relationship : String) (strength : ℚ) (bidirectional : Bool)
  | tag (tags : List String)
  | learning (data : List (String × String))
  | metaPattern (data : List (String × String))
deriving DecidableEq

/-- The node id `tag_${tag}` used by `handleTagUpdate` (the raw tag string,
no normalisation). -/
def tagNodeId (tag : String) : String := "tag_" ++ tag

/-- One iteration of `handleTagUpdate`'s loop: insert the Tag node iff
`!inMemoryNodes.has(tagNode.id)`. -/
def tagStep (now : Int) (m : List (String × GraphNode)) (tag : String) :
    List (String × GraphNode) :=
  if assocHas m (tagNodeId tag) then m
  else m ++ [(tagNodeId tag, ⟨tagNodeId tag, "Tag", [("name", tag)], now, now⟩)]

/-- `KnowledgeGraph.handleTagUpdate`: for each tag, a node with id
`tag_<tag>` (the raw tag string) is inserted iff the key is absent. -/
def handleTagUpdate (s : GraphState) (now : Int) (tags : List String) :
    GraphState :=
  { s with nodes := tags.foldl (tagStep now) s.nodes }

/-- One `KnowledgeGraphUpdate` dispatched by `KnowledgeGraph.applyUpdates`;
`now` is the value of `Date.now()` while the handler runs.  Note ids are
`note_<Date.now()>` (so two notes in the same millisecond share a key and
`Map.set` overwrites), link ids `link_<Date.now()>`; a link's strength uses
the JS falsy default `data.strength || 1.0`. -/
def applyUpdate (s : GraphState) (u : KGUpdate) (now : Int) : GraphState :=
  match u with
  | .note data =>
    let id := "note_" ++ toString now
    { s with nodes := assocSet s.nodes id ⟨id, "Note", data, now, now⟩ }
  | .link source target relationship strength bidirectional =>
    { s with
      links := s.links ++
        [⟨"link_" ++ toString now, source, target, relationship,
          if strength = 0 then 1 else strength, bidirectional⟩] }
  | .tag tags => handleTagUpdate s now tags
  | .learning data =>
    let id := "learning_" ++ toString now
    { s with nodes := assocSet s.nodes id ⟨id, "LearningPath", data, now, now⟩ }
  | .metaPattern data =>
    let id := "pattern_" ++ toString now
    { s with nodes := assocSet s.nodes id ⟨id, "MetaPattern", data, now, now⟩ }

/-- `KnowledgeGraph.applyUpdates`: the batch in order, each update paired
with the clock value observed while it is handled. -/
def applyUpdates (s : GraphState) (us : List (KGUpdate × Int)) : GraphState :=
  us.foldl (fun st p => applyUpdate st p.1 p.2) s

/-- `Math.min` on two numbers. -/
def mathMin (a b : ℚ) : ℚ := if a ≤ b then a else b

/-- `Math.max` on two integer timestamps. -/
def mathMax (a b : Int) : Int := if a ≤ b then b else a

/-- The fixed increment 0.1 of `incrementLinkWeight`. -/
def weightIncrement : ℚ := mkRat 1 10

/-- Body of `KnowledgeGraph.incrementLinkWeight`: `Array.prototype.find`
returns the first link with the exact `(source, target)` pair, and only that
element is mutated to `Math.min(1.0, strength + 0.1)`. -/
def incLinksFirst (source target : String) : List GraphLink → List GraphLink
  | [] => []
  | l :: ls =>
    if l.source = source ∧ l.target = target then
      { l with strength := mathMin 1 (l.strength + weightIncrement) } :: ls
    else l :: incLinksFirst source target ls

/-- `KnowledgeGraph.incrementLinkWeight`. -/
def incrementLinkWeight (s : GraphState) (source target : String) : GraphState :=
  { s with links := incLinksFirst source target s.links }

/-- A sequence of `incrementLinkWeight` calls. -/
def incrementSeq (s : GraphState) (calls : List (String × String)) : GraphState :=
  calls.foldl (fun st c => incrementLinkWeight st c.1 c.2) s

/-- Body of `KnowledgeGraph.removeLink`: `findIndex` + `splice(index, 1)`
removes the first link with the given id, if any. -/
def removeFirstLink (linkId : String) : List GraphLink → List GraphLink
  | [] => []
  | l :: ls => if l.id = linkId then ls else l :: removeFirstLink linkId ls

/-- `KnowledgeGraph.removeLink`. -/
def removeLink (s : GraphState) (linkId : String) : GraphState :=
  { s with links := removeFirstLink linkId s.links }

/-- `KnowledgeGraph.queryWeakLinks`: filters only on `strength < threshold`.
(The source computes a `cutoffDate` from the current clock and `days` but
never uses it, and links carry no last-touched timestamp.) -/
def queryWeakLinks (s : GraphState) (_days : Int) (threshold : ℚ) :
    List GraphLink :=
  s.links.filter (fun l => l.strength < threshold)

/-! ### Update reconciler (`ExecutiveManager.resolveConflicts`) -/

/-- Discriminators on `update.type`. -/
def isLinkUpd : KGUpdate → Bool
  | .link _ _ _ _ _ => true
  | _ => false

def isTagUpd : KGUpdate → Bool
  | .tag _ => true
  | _ => false

/-- `update.data.target` of a link update (only read on link updates). -/
def linkTarget : KGUpdate → String
  | .link _ target _ _ _ => target
  | _ => ""

/-- `update.data.strength` of a link update (only read on link updates). -/
def linkStrength : KGUpdate → ℚ
  | .link _ _ _ strength _ => strength
  | _ => 0

/-- The JS `<` on strings: lexicographic comparison of code units. -/
def charListLt : List Char → List Char → Bool
  | [], [] => false
  | [], _ :: _ => true
  | _ :: _, [] => false
  | c :: cs, d :: ds =>
    if c.toNat < d.toNat then true
    else if d.toNat < c.toNat then false
    else charListLt cs ds

def strLt (a b : String) : Bool := charListLt a.data b.data

/-- Ascending insertion used to model `Array.prototype.sort()` with the
default (string) comparator. -/
def insertSorted (x : String) : List String → List String
  | [] => [x]
  | y :: ys => if strLt y x then y :: insertSorted x ys else x :: y :: ys

/-- `update.data.tags?.sort()`. -/
def sortStrings : List String → List String
  | [] => []
  | x :: xs => insertSorted x (sortStrings xs)

/-- The dedup key `JSON.stringify(update.data.tags?.sort())`: modelled as the
sorted tag array itself (`JSON.stringify` is injective on string arrays). -/
def tagKey (tags : List String) : List String :=
  sortStrings tags

/-- First pass of `resolveConflicts`: drop a `tag` update whose key was
already seen; everything else passes. -/
def dedupTagsAux (seen : List (List String)) :
    List KGUpdate → List KGUpdate
  | [] => []
  | u :: rest =>
    match u with
    | .tag tags =>
      if tagKey tags ∈ seen then dedupTagsAux seen rest
      else u :: dedupTagsAux (tagKey tags :: seen) rest
    | _ => u :: dedupTagsAux seen rest

/-- Second pass of `resolveConflicts`, one step of the loop: a link update
goes into `linkMap` keyed by `data.target` (`Map.set` replaces in place when
the incoming strength is strictly higher), anything else is pushed onto
`nonLinks`. -/
def mergeStep (acc : List (String × KGUpdate) × List KGUpdate) (u : KGUpdate) :
    List (String × KGUpdate) × List KGUpdate :=
  match u with
  | .link _ target _ _ _ =>
    match assocLookup target acc.1 with
    | some existing =>
      if linkStrength u > linkStrength existing then
        (assocSet acc.1 target u, acc.2)
      else acc
    | none => (acc.1 ++ [(target, u)], acc.2)
  | _ => (acc.1, acc.2 ++ [u])

/-- `ExecutiveManager.resolveConflicts`: tag dedup, link merge by target,
then `[...nonLinks, ...linkMap.values()]`. -/
def resolveConflicts (updates : List KGUpdate) : List KGUpdate :=
  let deduped := dedupTagsAux [] updates
  let merged := deduped.foldl mergeStep ([], [])
  merged.2 ++ merged.1.map Prod.snd

/-! ### Memory consolidation (`MemoryConsolidation.extractPatterns`) -/

/-- An activity record `{noteId, timestamp}`; the ISO timestamp is modelled
by its millisecond value `new Date(timestamp).getTime()`. -/
structure Activity where
  noteId : String
  timestamp : Int
deriving DecidableEq

/-- `PatternMatch`. -/
structure PatternMatch where
  sourceNote : String
  targetNote : String
  frequency : Nat
  lastAccessed : Int
deriving DecidableEq

/-- The ordered pairs `(activities[i], activities[j])`, `i < j`, in the order
the nested loops of `extractPatterns` visit them. -/
def ordPairs {α : Type} : List α → List (α × α)
  | [] => []
  | x :: xs => xs.map (fun y => (x, y)) ++ ordPairs xs

/-- `[id1, id2].sort()` (JS code-unit comparison): the sorted pair of ids the
key is assembled from. -/
def pairKey (a b : String) : String × String :=
  if strLt b a then (b, a) else (a, b)

/-- `[id1, id2].sort().join('::')` — the string key of `accessPairs`. -/
def joinKey (a b : String) : String :=
  (pairKey a b).1 ++ "::" ++ (pairKey a b).2

/-- One step of JS `key.split('::')` (literal, non-overlapping, leftmost
match): the field before the first `::` and the remainder after it, or
`none` when the string contains no `::`. -/
def splitSepOnce : List Char → Option (List Char × List Char)
  | [] => none
  | c :: rest =>
    if c = ':' then
      match rest with
      | ':' :: rest2 => some ([], rest2)
      | _ => (splitSepOnce rest).map (fun q => (c :: q.1, q.2))
    else (splitSepOnce rest).map (fun q => (c :: q.1, q.2))

/-- `const [source, target] = key.split('::')`: the first two fields of the
split — any further fields (which arise when a note id itself contains
`::`) are discarded by the destructuring. Keys built by `joinKey` always
contain a `::`, so the no-separator branch is never reached from
`extractPatterns`. -/
def splitKey (key : String) : String × String :=
  match splitSepOnce key.data with
  | none => (key, "")
  | some (src, rest) =>
    match splitSepOnce rest with
    | none => (String.mk src, String.mk rest)
    | some (tgt, _) => (String.mk src, String.mk tgt)

/-- Whether one loop iteration records the pair: both accesses within five
minutes (`timeDiff < 5 * 60 * 1000`). -/
def withinWindow (p : Activity × Activity) : Bool :=
  (p.1.timestamp - p.2.timestamp).natAbs < 300000

/-- The `accessPairs.set(...)` step: count bumped by one, `lastAccess` maxed
with `activity1.timestamp` (missing entries default to `{count: 0,
lastAccess: new Date(0)}`), entry order = key insertion order. -/
def recordPair (m : List (String × Nat × Int))
    (k : String) (t1 : Int) : List (String × Nat × Int) :=
  if assocHas m k then
    m.map (fun e => if e.1 = k then (k, e.2.1 + 1, mathMax e.2.2 t1) else e)
  else m ++ [(k, 1, mathMax 0 t1)]

/-- One iteration of `extractPatterns`'s nested loops: record the pair under
its joined string key when the five-minute window test passes. -/
def consStep (m : List (String × Nat × Int))
    (p : Activity × Activity) : List (String × Nat × Int) :=
  if withinWindow p then
    recordPair m (joinKey p.1.noteId p.2.noteId) p.1.timestamp
  else m

/-- `MemoryConsolidation.extractPatterns`: the `accessPairs` map built by
the nested loops, converted to `PatternMatch` entries in insertion order,
each key destructured back through `split('::')`. -/
def extractPatterns (activities : List Activity) : List PatternMatch :=
  ((ordPairs activities).foldl consStep []).map
    (fun e => ⟨(splitKey e.1).1, (splitKey e.1).2, e.2.1, e.2.2⟩)

/-- The qualifying loop iterations that feed a given string key: used to
state what `extractPatterns` computes. -/
def qualPairs (activities : List Activity) (k : String) :
    List (Activity × Activity) :=
  (ordPairs activities).filter
    (fun p => withinWindow p && joinKey p.1.noteId p.2.noteId = k)

/-- Number of qualifying iterations for a key. -/
def qualCount (activities : List Activity) (k : String) : Nat :=
  (qualPairs activities k).length

/-- The `lastAccess` value the loop accumulates for a key: the maximum of 0
(the epoch default) and the first components' timestamps. -/
def qualLastAccess (activities : List Activity) (k : String) : Int :=
  (qualPairs activities k).foldl (fun acc p => mathMax acc p.1.timestamp) 0

/-- A note id free of the key-separator character `:` — for such ids the
`join('::')`/`split('::')` pair is lossless. -/
def sepFree (s : String) : Bool :=
  s.data.all (fun c => c ≠ ':')

/-! ### Lemmas: vocabulary and count vector -/

theorem dfsStep_fold_mem {α : Type} [DecidableEq α] :
    ∀ (l : List α) (acc : List α) (x : α),
      x ∈ l.foldl dfsStep acc ↔ x ∈ acc ∨ x ∈ l := by
  intro l
  induction l with
  | nil => simp
  | cons w t ih =>
    intro acc x
    simp only [List.foldl_cons, ih, dfsStep]
    by_cases hw : w ∈ acc
    · simp only [if_pos hw, List.mem_cons]
      constructor
      · rintro (h | h)
        · exact Or.inl h
        · exact Or.inr (Or.inr h)
      · rintro (h | h | h)
        · exact Or.inl h
        · exact Or.inl (h ▸ hw)
        · exact Or.inr h
    · simp only [if_neg hw, List.mem_append, List.mem_singleton, List.mem_cons]
      tauto

theorem dfsStep_fold_nodup {α : Type} [DecidableEq α] :
    ∀ (l : List α) (acc : List α), acc.Nodup → (l.foldl dfsStep acc).Nodup := by
  intro l
  induction l with
  | nil => simpa using fun _ h => h
  | cons w t ih =>
    intro acc hacc
    simp only [List.foldl_cons]
    apply ih
    by_cases hw : w ∈ acc
    · simpa [dfsStep, if_pos hw] using hacc
    · simp only [dfsStep, if_neg hw]
      exact List.Nodup.append hacc (List.nodup_singleton w)
        (by simpa using fun h => hw h)

theorem distinctFirstSeen_mem {α : Type} [DecidableEq α] (l : List α) (x : α) :
    x ∈ distinctFirstSeen l ↔ x ∈ l := by
  simp [distinctFirstSeen, dfsStep_fold_mem]

theorem distinctFirstSeen_nodup {α : Type} [DecidableEq α] (l : List α) :
    (distinctFirstSeen l).Nodup :=
  dfsStep_fold_nodup l [] List.nodup_nil

theorem dfsStep_fold_map {α β : Type} [DecidableEq α] [DecidableEq β]
    (g : α → β) (hg : Function.Injective g) :
    ∀ (l : List α) (acc : List α),
      (l.map g).foldl dfsStep (acc.map g) = (l.foldl dfsStep acc).map g := by
  intro l
  induction l with
  | nil => simp
  | cons w t ih =>
    intro acc
    simp only [List.map_cons, List.foldl_cons]
    have hmem : (g w ∈ acc.map g) ↔ (w ∈ acc) := by
      constructor
      · intro h
        rcases List.mem_map.mp h with ⟨a, ha, hga⟩
        exact (hg hga) ▸ ha
      · exact fun h => List.mem_map.mpr ⟨w, h, rfl⟩
    by_cases hw : w ∈ acc
    · rw [show dfsStep (acc.map g) (g w) = acc.map g from
        if_pos (hmem.mpr hw), show dfsStep acc w = acc from if_pos hw]
      exact ih acc
    · rw [show dfsStep (acc.map g) (g w) = acc.map g ++ [g w] from
        if_neg (fun h => hw (hmem.mp h)),
        show dfsStep acc w = acc ++ [w] from if_neg hw,
        show acc.map g ++ [g w] = (acc ++ [w]).map g by simp]
      exact ih (acc ++ [w])

theorem distinctFirstSeen_map {α β : Type} [DecidableEq α] [DecidableEq β]
    (g : α → β) (hg : Function.Injective g) (l : List α) :
    distinctFirstSeen (l.map g) = (distinctFirstSeen l).map g := by
  simpa [distinctFirstSeen] using dfsStep_fold_map g hg l []

theorem countStep_fold_length (ws : List (List Char)) :
    ∀ (l : List (List Char)) (acc : List Nat),
      (l.foldl (countStep ws) acc).length = acc.length := by
  intro l
  induction l with
  | nil => simp
  | cons w t ih =>
    intro acc
    simp only [List.foldl_cons]
    rw [ih]
    unfold countStep
    by_cases h : vocabIdx ws w < 100
    · simp [if_pos h]
    · simp [if_neg h]

theorem countStep_fold_getD (ws : List (List Char)) :
    ∀ (l : List (List Char)) (acc : List Nat) (i : Nat),
      i < acc.length → i < 100 →
      (l.foldl (countStep ws) acc).getD i 0 =
        acc.getD i 0 + l.countP (fun w => vocabIdx ws w == i) := by
  intro l
  induction l with
  | nil => simp
  | cons w t ih =>
    intro acc i hi h100
    simp only [List.foldl_cons, List.countP_cons]
    by_cases hidx : vocabIdx ws w < 100
    · have hstep : countStep ws acc w =
          acc.set (vocabIdx ws w) (acc.getD (vocabIdx ws w) 0 + 1) := by
        unfold countStep
        simp [if_pos hidx]
      rw [hstep]
      rw [ih _ i (by simpa using hi) h100]
      by_cases heq : vocabIdx ws w = i
      · have : (acc.set (vocabIdx ws w) (acc.getD (vocabIdx ws w) 0 + 1)).getD i 0
            = acc.getD i 0 + 1 := by
          subst heq
          rw [List.getD_eq_getD_get?, List.getD_eq_getD_get?]
          rw [List.get?_set_eq_of_lt _ hi]
          simp
        rw [this]
        simp only [heq, beq_self_eq_true, if_pos]
        omega
      · have : (acc.set (vocabIdx ws w) (acc.getD (vocabIdx ws w) 0 + 1)).getD i 0
            = acc.getD i 0 := by
          rw [List.getD_eq_getD_get?, List.get?_set_ne _ _ heq,
            ← List.getD_eq_getD_get?]
        rw [this]
        have : (vocabIdx ws w == i) = false := by
          simpa using heq
        simp [this]
    · have hstep : countStep ws acc w = acc := by
        unfold countStep
        simp [if_neg hidx]
      rw [hstep, ih _ i hi h100]
      have : (vocabIdx ws w == i) = false := by
        have : vocabIdx ws w ≠ i := by omega
        simpa using this
      simp [this]

theorem embedCounts_length (ws : List (List Char)) :
    (embedCounts ws).length = min (distinctFirstSeen ws).length 100 := by
  unfold embedCounts
  rw [countStep_fold_length, List.length_replicate]

theorem replicate_getD_zero (n i : Nat) :
    (List.replicate n (0 : Nat)).getD i 0 = 0 := by
  by_cases h : i < n
  · rw [List.getD_eq_getElem _ _ (by simpa using h)]
    simp
  · rw [List.getD_eq_default _ _ (by simpa using Nat.le_of_not_lt h)]

theorem embedCounts_eq (ws : List (List Char)) :
    embedCounts ws =
      ((distinctFirstSeen ws).take 100).map (fun w => ws.count w) := by
  have hmin : (embedCounts ws).length = min (distinctFirstSeen ws).length 100 :=
    embedCounts_length ws
  apply List.ext_get
  · rw [hmin, List.length_map, List.length_take, Nat.min_comm]
  intro i h1 h2
  have hi100 : i < 100 := by
    rw [hmin] at h1
    omega
  have hiD : i < (distinctFirstSeen ws).length := by
    rw [hmin] at h1
    omega
  have hRHS : (((distinctFirstSeen ws).take 100).map (fun w => ws.count w)).get ⟨i, h2⟩
      = ws.count ((distinctFirstSeen ws).get ⟨i, hiD⟩) := by
    simp [List.get_eq_getElem, List.getElem_map, List.getElem_take]
  have hfold : (embedCounts ws).getD i 0 =
      List.countP (fun w => vocabIdx ws w == i) ws := by
    unfold embedCounts
    rw [countStep_fold_getD ws ws _ i (by rw [List.length_replicate]; omega) hi100]
    rw [replicate_getD_zero, Nat.zero_add]
  have hgetD : (embedCounts ws).get ⟨i, h1⟩ = (embedCounts ws).getD i 0 :=
    (List.getD_eq_get _ _ h1).symm
  rw [hgetD, hfold, hRHS, List.count_eq_countP]
  apply List.countP_congr
  intro w hw
  have hwD : w ∈ distinctFirstSeen ws := (distinctFirstSeen_mem ws w).mpr hw
  have hlt : vocabIdx ws w < (distinctFirstSeen ws).length := by
    unfold vocabIdx
    exact List.indexOf_lt_length.mpr hwD
  have hiff : vocabIdx ws w = i ↔ w = (distinctFirstSeen ws).get ⟨i, hiD⟩ := by
    constructor
    · intro h
      have hg := List.indexOf_get (a := w) (l := distinctFirstSeen ws)
        (by unfold vocabIdx at hlt; exact hlt)
      rw [← hg]
      congr 1
      exact Fin.ext (by simpa [vocabIdx] using h)
    · intro h
      have hidx := List.indexOf_getElem (distinctFirstSeen_nodup ws) i hiD
      simp only [vocabIdx, h, List.get_eq_getElem]
      exact hidx
  by_cases hc : vocabIdx ws w = i
  · have hw2 : w = (distinctFirstSeen ws).get ⟨i, hiD⟩ := hiff.mp hc
    rw [show (vocabIdx ws w == i) = true by simpa using hc,
      show (w == (distinctFirstSeen ws).get ⟨i, hiD⟩) = true by simpa using hw2]
  · have hw2 : ¬ (w = (distinctFirstSeen ws).get ⟨i, hiD⟩) := fun h => hc (hiff.mpr h)
    rw [show (vocabIdx ws w == i) = false by simpa using hc,
      show (w == (distinctFirstSeen ws).get ⟨i, hiD⟩) = false by simpa using hw2]

theorem normalizeVec_length (v : List ℝ) : (normalizeVec v).length = v.length := by
  unfold normalizeVec
  rw [apply_ite List.length, List.length_map, ite_self]

theorem generateSimpleEmbedding_length (t : List Char) :
    (generateSimpleEmbedding t).length
      = min (distinctFirstSeen (tokenize t)).length 100 := by
  unfold generateSimpleEmbedding
  rw [normalizeVec_length]
  simp [embedCounts_length]

/-! ### Lemmas: sums of squares and cosine similarity -/

theorem foldl_sumSq_shift :
    ∀ (l : List ℝ) (s : ℝ),
      l.foldl (fun a v => a + v * v) s = s + l.foldl (fun a v => a + v * v) 0 := by
  intro l
  induction l with
  | nil => simp
  | cons x t ih =>
    intro s
    simp only [List.foldl_cons]
    rw [ih (s + x * x), ih (0 + x * x)]
    ring

theorem sumSq_nil : sumSq [] = 0 := rfl

theorem sumSq_cons (x : ℝ) (l : List ℝ) : sumSq (x :: l) = x * x + sumSq l := by
  unfold sumSq
  simp only [List.foldl_cons]
  rw [foldl_sumSq_shift]
  ring

theorem sumSq_nonneg (l : List ℝ) : 0 ≤ sumSq l := by
  induction l with
  | nil => rw [sumSq_nil]
  | cons x t ih =>
    rw [sumSq_cons]
    exact add_nonneg (mul_self_nonneg x) ih

theorem sumSq_pos {a : List ℝ} (ha : ∃ x ∈ a, x ≠ 0) : 0 < sumSq a := by
  induction a with
  | nil => simp at ha
  | cons x t ih =>
    rw [sumSq_cons]
    rcases ha with ⟨y, hy, hy0⟩
    rcases List.mem_cons.mp hy with h | h
    · exact add_pos_of_pos_of_nonneg (mul_self_pos.mpr (h ▸ hy0)) (sumSq_nonneg t)
    · exact add_pos_of_nonneg_of_pos (mul_self_nonneg x) (ih ⟨y, h, hy0⟩)

theorem sumSq_eq_sum_map (l : List ℝ) :
    sumSq l = (l.map (fun x => x * x)).sum := by
  induction l with
  | nil => simp [sumSq_nil]
  | cons x t ih => rw [sumSq_cons, List.map_cons, List.sum_cons, ih]

theorem zipWith_self_sum (a : List ℝ) :
    (List.zipWith (fun x y => x * y) a a).sum = sumSq a := by
  rw [sumSq_eq_sum_map]
  congr 1
  exact List.zipWith_same (fun x y => x * y) a

theorem cosine_symm_lemma (a b : List ℝ) :
    cosineSimilarity a b = cosineSimilarity b a := by
  unfold cosineSimilarity
  by_cases h : a.length = b.length
  · rw [if_neg (not_not_intro h), if_neg (not_not_intro h.symm)]
    simp only
    rw [List.zipWith_comm_of_comm (fun x y => x * y) mul_comm a b]
    exact if_congr or_comm rfl
      (by rw [mul_comm (Real.sqrt (sumSq a)) (Real.sqrt (sumSq b))])
  · rw [if_pos h, if_pos (fun hh => h hh.symm)]

theorem cosine_self_lemma (a : List ℝ) (ha : ∃ x ∈ a, x ≠ 0) :
    cosineSimilarity a a = 1 := by
  unfold cosineSimilarity
  rw [if_neg (not_not_intro rfl)]
  have hpos : 0 < sumSq a := sumSq_pos ha
  have hs : Real.sqrt (sumSq a) ≠ 0 := ne_of_gt (Real.sqrt_pos.mpr hpos)
  simp only
  rw [if_neg (by rintro (h | h) <;> exact hs h)]
  rw [zipWith_self_sum, Real.mul_self_sqrt (le_of_lt hpos),
    div_self (ne_of_gt hpos)]

theorem cosine_mismatch_lemma (a b : List ℝ) (h : a.length ≠ b.length) :
    cosineSimilarity a b = 0 := by
  unfold cosineSimilarity
  rw [if_pos h]

theorem cosine_zero_mag_lemma (a b : List ℝ)
    (h : Real.sqrt (sumSq a) = 0 ∨ Real.sqrt (sumSq b) = 0) :
    cosineSimilarity a b = 0 := by
  unfold cosineSimilarity
  by_cases hl : a.length ≠ b.length
  · rw [if_pos hl]
  · rw [if_neg hl]
    simp only
    rw [if_pos h]

/-! ### Spec-side embedding definitions and claims C2, C9, C10 -/

/-- The fallback embedding as the spec words it: term counts accumulated
into a FIXED 100-length vector (entry `i` holds the count of the `i`-th
first-seen distinct word, 0 beyond the vocabulary), L2-normalised, a
zero-magnitude vector returned unnormalised. -/
noncomputable def specFixed100Embedding (text : List Char) : List ℝ :=
  normalizeVec ((List.range 100).map
    (fun i =>
      if i < (distinctFirstSeen (tokenize text)).length then
        (Nat.cast ((tokenize text).count
          ((distinctFirstSeen (tokenize text)).getD i [])) : ℝ)
      else 0))

/-- The amended description of the fallback embedding: term counts of the
first 100 first-seen distinct words, in a vector of length
`min(#distinct words, 100)`, L2-normalised, zero-magnitude unnormalised. -/
noncomputable def specCappedEmbedding (text : List Char) : List ℝ :=
  normalizeVec (((distinctFirstSeen (tokenize text)).take 100).map
    (fun w => (Nat.cast ((tokenize text).count w) : ℝ)))

/-- C2 (counterexample): the claim's "fixed 100-length vector" fails on the
code: for the content "hello world" the code's fallback embedding has
length 2 (`min(vocab.size, 100)`), not 100. -/
theorem C2_counterexample :
    generateSimpleEmbedding ("hello world".toList)
      ≠ specFixed100Embedding ("hello world".toList) := by
  intro h
  have hl := congrArg List.length h
  rw [generateSimpleEmbedding_length] at hl
  have h2 : (distinctFirstSeen (tokenize "hello world".toList)).length = 2 := by
    decide
  rw [h2] at hl
  have h100 : (specFixed100Embedding ("hello world".toList)).length = 100 := by
    unfold specFixed100Embedding
    rw [normalizeVec_length, List.length_map, List.length_range]
  rw [h100] at hl
  omega

/-- C2 (amended): the fallback embedding equals the spec's construction with
the vector length amended from a fixed 100 to `min(#distinct words, 100)`:
tokenize by whitespace into lowercase words, accumulate term counts of the
words with first-seen index below 100, L2-normalise, and return a
zero-magnitude vector unnormalised. -/
theorem C2_fallback_embedding_amended (t : List Char) :
    generateSimpleEmbedding t = specCappedEmbedding t := by
  unfold generateSimpleEmbedding specCappedEmbedding
  rw [embedCounts_eq, List.map_map]
  rfl

/-- C9: cosine similarity is symmetric, equals 1 on any non-zero vector
paired with itself, equals 0 on mismatched lengths, and equals 0 when either
magnitude is 0. -/
theorem C9_cosine_properties :
    (∀ a b : List ℝ, cosineSimilarity a b = cosineSimilarity b a) ∧
    (∀ a : List ℝ, (∃ x ∈ a, x ≠ 0) → cosineSimilarity a a = 1) ∧
    (∀ a b : List ℝ, a.length ≠ b.length → cosineSimilarity a b = 0) ∧
    (∀ a b : List ℝ,
      Real.sqrt (sumSq a) = 0 ∨ Real.sqrt (sumSq b) = 0 →
        cosineSimilarity a b = 0) :=
  ⟨cosine_symm_lemma, cosine_self_lemma, cosine_mismatch_lemma,
    cosine_zero_mag_lemma⟩

/-- Witness for C9 at concrete vectors. -/
theorem C9_witness :
    cosineSimilarity [(1 : ℝ)] [(1 : ℝ)] = 1 ∧
    cosineSimilarity [(1 : ℝ)] [] = 0 ∧
    cosineSimilarity [(0 : ℝ)] [(0 : ℝ)] = 0 :=
  ⟨C9_cosine_properties.2.1 [(1 : ℝ)] ⟨1, by simp, by simp⟩,
   C9_cosine_properties.2.2.1 [(1 : ℝ)] [] (by simp),
   C9_cosine_properties.2.2.2 [(0 : ℝ)] [(0 : ℝ)]
     (Or.inl (by rw [show sumSq [(0 : ℝ)] = 0 by simp [sumSq_cons, sumSq_nil],
        Real.sqrt_zero]))⟩

/-- C10: the fallback embedding of a text has length
`min(#distinct tokens, 100)`; any query/document pair whose capped
distinct-token counts differ gets cosine similarity exactly 0, and in-memory
search scores such a freshly added document 0 regardless of shared words. -/
theorem C10_embedding_length_gate :
    (∀ t : List Char, (generateSimpleEmbedding t).length
        = min (distinctFirstSeen (tokenize t)).length 100) ∧
    (∀ q d : List Char,
        min (distinctFirstSeen (tokenize q)).length 100
          ≠ min (distinctFirstSeen (tokenize d)).length 100 →
        cosineSimilarity (generateSimpleEmbedding q)
          (generateSimpleEmbedding d) = 0) ∧
    (∀ (store : List VectorDoc) (id : String) (q c : List Char),
        min (distinctFirstSeen (tokenize q)).length 100
          ≠ min (distinctFirstSeen (tokenize c)).length 100 →
        searchSimilarities (addDocument store id c) q
          = searchSimilarities store q ++ [0]) := by
  refine ⟨generateSimpleEmbedding_length, ?_, ?_⟩
  · intro q d h
    apply cosine_mismatch_lemma
    rw [generateSimpleEmbedding_length, generateSimpleEmbedding_length]
    exact h
  · intro store id q c h
    have h0 : cosineSimilarity (generateSimpleEmbedding q)
        (generateSimpleEmbedding c) = 0 := by
      apply cosine_mismatch_lemma
      rw [generateSimpleEmbedding_length, generateSimpleEmbedding_length]
      exact h
    simp [searchSimilarities, addDocument, h0]

/-- Witness for C10 at concrete contents ("a" has 1 distinct token,
"a b" has 2). -/
theorem C10_witness :
    cosineSimilarity (generateSimpleEmbedding ['a'])
      (generateSimpleEmbedding ['a', ' ', 'b']) = 0 ∧
    searchSimilarities (addDocument [] "d1" ['a', ' ', 'b']) ['a']
      = [0] :=
  ⟨C10_embedding_length_gate.2.1 ['a'] ['a', ' ', 'b'] (by decide),
   C10_embedding_length_gate.2.2 [] "d1" ['a'] ['a', ' ', 'b'] (by decide)⟩

/-! ### Lemmas: link weight increments and removals (claims C1, C6, C7, C8) -/

theorem incLinksFirst_length (source target : String) :
    ∀ ls : List GraphLink, (incLinksFirst source target ls).length = ls.length := by
  intro ls
  induction ls with
  | nil => rfl
  | cons l t ih =>
    unfold incLinksFirst
    by_cases h : l.source = source ∧ l.target = target
    · rw [if_pos h]
      simp
    · rw [if_neg h]
      simp [ih]

theorem incLinksFirst_getD (source target : String) :
    ∀ (ls : List GraphLink) (i : Nat),
      (incLinksFirst source target ls).getD i default = ls.getD i default ∨
      (incLinksFirst source target ls).getD i default =
        { ls.getD i default with
            strength := mathMin 1 ((ls.getD i default).strength + weightIncrement) } := by
  intro ls
  induction ls with
  | nil => intro i; left; rfl
  | cons l t ih =>
    intro i
    unfold incLinksFirst
    by_cases h : l.source = source ∧ l.target = target
    · rw [if_pos h]
      cases i with
      | zero => right; rfl
      | succ n => left; rfl
    · rw [if_neg h]
      cases i with
      | zero => left; rfl
      | succ n =>
        simpa only [List.getD_cons_succ] using ih n

theorem mathMin_le_one (x : ℚ) : mathMin 1 x ≤ 1 := by
  unfold mathMin
  by_cases h : (1 : ℚ) ≤ x
  · rw [if_pos h]
  · rw [if_neg h]
    exact le_of_lt (not_le.mp h)

theorem weightIncrement_nonneg : (0 : ℚ) ≤ weightIncrement := by decide

theorem le_mathMin_inc (s : ℚ) (hs : s ≤ 1) :
    s ≤ mathMin 1 (s + weightIncrement) := by
  unfold mathMin
  by_cases h : (1 : ℚ) ≤ s + weightIncrement
  · rw [if_pos h]
    exact hs
  · rw [if_neg h]
    have := weightIncrement_nonneg
    linarith

theorem incrementLinkWeight_step (s : GraphState) (src tgt : String) (i : Nat)
    (h1 : (s.links.getD i default).strength ≤ 1) :
    ((incrementLinkWeight s src tgt).links.getD i default).strength ≤ 1 ∧
    (s.links.getD i default).strength ≤
      ((incrementLinkWeight s src tgt).links.getD i default).strength := by
  have hlinks : (incrementLinkWeight s src tgt).links = incLinksFirst src tgt s.links :=
    rfl
  rw [hlinks]
  rcases incLinksFirst_getD src tgt s.links i with h | h
  · rw [h]
    exact ⟨h1, le_refl _⟩
  · rw [h]
    exact ⟨mathMin_le_one _, le_mathMin_inc _ h1⟩

theorem incrementSeq_invariant (s : GraphState) (calls : List (String × String))
    (i : Nat) :
    (s.links.getD i default).strength ≤ 1 →
    ((incrementSeq s calls).links.getD i default).strength ≤ 1 ∧
    (s.links.getD i default).strength ≤
      ((incrementSeq s calls).links.getD i default).strength := by
  induction calls generalizing s with
  | nil => exact fun h => ⟨h, le_refl _⟩
  | cons c cs ih =>
    intro h
    have hstep := incrementLinkWeight_step s c.1 c.2 i h
    have hrec := ih (incrementLinkWeight s c.1 c.2) hstep.1
    have hseq : incrementSeq s (c :: cs)
        = incrementSeq (incrementLinkWeight s c.1 c.2) cs := rfl
    rw [hseq]
    exact ⟨hrec.1, le_trans hstep.2 hrec.2⟩

/-- C1 (amended): each `incrementLinkWeight` call leaves every stored link
untouched or sets its strength to `min(1, strength + 0.1)`, and for any
sequence of calls, a link whose prior strength is at most 1.0 (the
data-model range; creation does not enforce it) never exceeds 1.0 and never
drops below its prior value. -/
theorem C1_increment_clamp_monotone :
    (∀ (s : GraphState) (src tgt : String),
      (incrementLinkWeight s src tgt).links.length = s.links.length) ∧
    (∀ (s : GraphState) (src tgt : String) (i : Nat),
      (incrementLinkWeight s src tgt).links.getD i default
          = s.links.getD i default ∨
      (incrementLinkWeight s src tgt).links.getD i default =
        { s.links.getD i default with
            strength :=
              mathMin 1 ((s.links.getD i default).strength + weightIncrement) }) ∧
    (∀ (s : GraphState) (calls : List (String × String)) (i : Nat),
      (s.links.getD i default).strength ≤ 1 →
      ((incrementSeq s calls).links.getD i default).strength ≤ 1 ∧
      (s.links.getD i default).strength ≤
        ((incrementSeq s calls).links.getD i default).strength) :=
  ⟨fun s src tgt => incLinksFirst_length src tgt s.links,
   fun s src tgt i => incLinksFirst_getD src tgt s.links i,
   incrementSeq_invariant⟩

/-- Witness for C1 at a store with one link of strength 0.5. -/
theorem C1_witness :
    ((incrementSeq ⟨[], [⟨"l1", "a", "b", "r", mkRat 1 2, false⟩]⟩
        [("a", "b")]).links.getD 0 default).strength ≤ 1 ∧
    ((⟨[], [⟨"l1", "a", "b", "r", mkRat 1 2, false⟩]⟩ : GraphState).links.getD 0
        default).strength ≤
      ((incrementSeq ⟨[], [⟨"l1", "a", "b", "r", mkRat 1 2, false⟩]⟩
        [("a", "b")]).links.getD 0 default).strength :=
  C1_increment_clamp_monotone.2.2
    ⟨[], [⟨"l1", "a", "b", "r", mkRat 1 2, false⟩]⟩ [("a", "b")] 0 (by decide)

/-- C1 (counterexample): with a stored link of strength 1.5 — reachable,
since link creation stores `data.strength` unclamped — one increment call
sets the strength to 1.0, strictly below its prior value. -/
theorem C1_counterexample :
    (incrementLinkWeight ⟨[], [⟨"L1", "a", "b", "rel", mkRat 3 2, false⟩]⟩
        "a" "b").links
      = [⟨"L1", "a", "b", "rel", 1, false⟩] ∧
    ¬ ((mkRat 3 2 : ℚ) ≤ 1) := by
  constructor
  · simp only [incrementLinkWeight, incLinksFirst, mathMin, weightIncrement]
    norm_num [Rat.mkRat_eq_div]
  · decide

theorem incLinksFirst_no_match (source target : String) :
    ∀ ls : List GraphLink,
      (∀ l ∈ ls, ¬ (l.source = source ∧ l.target = target)) →
      incLinksFirst source target ls = ls := by
  intro ls
  induction ls with
  | nil => intro _; rfl
  | cons l t ih =>
    intro h
    unfold incLinksFirst
    rw [if_neg (h l (List.mem_cons_self l t))]
    rw [ih (fun x hx => h x (List.mem_cons_of_mem l hx))]

theorem removeFirstLink_no_match (linkId : String) :
    ∀ ls : List GraphLink, (∀ l ∈ ls, l.id ≠ linkId) →
      removeFirstLink linkId ls = ls := by
  intro ls
  induction ls with
  | nil => intro _; rfl
  | cons l t ih =>
    intro h
    unfold removeFirstLink
    rw [if_neg (h l (List.mem_cons_self l t))]
    rw [ih (fun x hx => h x (List.mem_cons_of_mem l hx))]

theorem removeFirstLink_cons (linkId : String) (l : GraphLink)
    (t : List GraphLink) :
    removeFirstLink linkId (l :: t)
      = if l.id = linkId then t else l :: removeFirstLink linkId t := rfl

theorem removeFirstLink_idem (linkId : String) :
    ∀ ls : List GraphLink, ls.countP (fun l => l.id == linkId) ≤ 1 →
      removeFirstLink linkId (removeFirstLink linkId ls)
        = removeFirstLink linkId ls := by
  intro ls
  induction ls with
  | nil => intro _; rfl
  | cons l t ih =>
    intro h
    rw [List.countP_cons] at h
    by_cases hl : l.id = linkId
    · rw [removeFirstLink_cons, if_pos hl]
      apply removeFirstLink_no_match
      intro x hx hxid
      have hpos : 0 < t.countP (fun x => x.id == linkId) :=
        List.countP_pos.mpr ⟨x, hx, by simpa using hxid⟩
      have hone : (if (fun x => x.id == linkId) l then 1 else 0) = 1 := by
        simp [hl]
      rw [hone] at h
      omega
    · rw [removeFirstLink_cons, if_neg hl, removeFirstLink_cons, if_neg hl]
      have hle : t.countP (fun x => x.id == linkId) ≤ 1 := by
        omega
      rw [ih hle]

/-- C8 (amended): `incrementLinkWeight` with no exact-direction match and
`removeLink` with an unknown id leave the store unchanged, and `removeLink`
is idempotent provided at most one stored link carries the id (link ids can
collide when two links are created in the same millisecond). -/
theorem C8_noop_idempotent :
    (∀ (s : GraphState) (src tgt : String),
      (∀ l ∈ s.links, ¬ (l.source = src ∧ l.target = tgt)) →
      incrementLinkWeight s src tgt = s) ∧
    (∀ (s : GraphState) (lid : String),
      (∀ l ∈ s.links, l.id ≠ lid) → removeLink s lid = s) ∧
    (∀ (s : GraphState) (lid : String),
      s.links.countP (fun l => l.id == lid) ≤ 1 →
      removeLink (removeLink s lid) lid = removeLink s lid) := by
  refine ⟨?_, ?_, ?_⟩
  · intro s src tgt h
    cases s with
    | mk nodes links =>
      unfold incrementLinkWeight
      simp only
      rw [incLinksFirst_no_match src tgt links h]
  · intro s lid h
    cases s with
    | mk nodes links =>
      unfold removeLink
      simp only
      rw [removeFirstLink_no_match lid links h]
  · intro s lid h
    unfold removeLink
    simp only
    rw [removeFirstLink_idem lid s.links h]

/-- Witness for C8 at a store with a single link. -/
theorem C8_witness :
    incrementLinkWeight ⟨[], [⟨"L", "a", "b", "r", mkRat 1 2, false⟩]⟩ "x" "y"
      = ⟨[], [⟨"L", "a", "b", "r", mkRat 1 2, false⟩]⟩ ∧
    removeLink ⟨[], [⟨"L", "a", "b", "r", mkRat 1 2, false⟩]⟩ "Z"
      = ⟨[], [⟨"L", "a", "b", "r", mkRat 1 2, false⟩]⟩ ∧
    removeLink (removeLink ⟨[], [⟨"L", "a", "b", "r", mkRat 1 2, false⟩]⟩ "L") "L"
      = removeLink ⟨[], [⟨"L", "a", "b", "r", mkRat 1 2, false⟩]⟩ "L" :=
  ⟨C8_noop_idempotent.1 ⟨[], [⟨"L", "a", "b", "r", mkRat 1 2, false⟩]⟩ "x" "y"
      (by decide),
   C8_noop_idempotent.2.1 ⟨[], [⟨"L", "a", "b", "r", mkRat 1 2, false⟩]⟩ "Z"
      (by decide),
   C8_noop_idempotent.2.2 ⟨[], [⟨"L", "a", "b", "r", mkRat 1 2, false⟩]⟩ "L"
      (by decide)⟩

/-- C8 (counterexample): with two stored links sharing id "L" (reachable:
two link creations in the same millisecond), a second `removeLink("L")`
deletes a second link, so `removeLink` is not idempotent in general. -/
theorem C8_counterexample :
    removeLink (removeLink ⟨[], [⟨"L", "a", "b", "r", mkRat 1 2, false⟩,
        ⟨"L", "c", "d", "r", mkRat 1 2, false⟩]⟩ "L") "L"
      ≠ removeLink ⟨[], [⟨"L", "a", "b", "r", mkRat 1 2, false⟩,
        ⟨"L", "c", "d", "r", mkRat 1 2, false⟩]⟩ "L" := by
  decide

/-- C7 (code evaluation): two note-create updates handled at the same
`Date.now()` value 5 both produce the id `note_5`, and `Map.set` overwrites,
leaving ONE node holding the second payload, not two distinct Note nodes;
with distinct clock values the store does hold two nodes. -/
theorem C7_same_millisecond_collision :
    (applyUpdates initialGraph
        [(.note [("content", "a")], 5), (.note [("content", "b")], 5)]).nodes.length
      = 1 ∧
    assocLookup "note_5" (applyUpdates initialGraph
        [(.note [("content", "a")], 5), (.note [("content", "b")], 5)]).nodes
      = some ⟨"note_5", "Note", [("content", "b")], 5, 5⟩ ∧
    (applyUpdates initialGraph
        [(.note [("content", "a")], 5), (.note [("content", "b")], 6)]).nodes.length
      = 2 :=
  ⟨by decide, by decide, by decide⟩

/-- C6 (code evaluation): `queryWeakLinks` ignores `days` entirely — for
every `days` value, on links of strengths [0.1, 0.5, 0.9] with threshold
0.4 it returns exactly the 0.1 link.  The source computes a `cutoffDate`
from `days` but never applies it, and links carry no last-touched
timestamp to compare against. -/
theorem C6_days_ignored :
    ∀ days : Int,
      queryWeakLinks ⟨[], [⟨"l1", "a", "b", "r", mkRat 1 10, false⟩,
          ⟨"l2", "a", "c", "r", mkRat 1 2, false⟩,
          ⟨"l3", "a", "d", "r", mkRat 9 10, false⟩]⟩ days (mkRat 2 5)
        = [⟨"l1", "a", "b", "r", mkRat 1 10, false⟩] := by
  intro days
  exact (by decide :
    queryWeakLinks ⟨[], [⟨"l1", "a", "b", "r", mkRat 1 10, false⟩,
        ⟨"l2", "a", "c", "r", mkRat 1 2, false⟩,
        ⟨"l3", "a", "d", "r", mkRat 9 10, false⟩]⟩ 0 (mkRat 2 5)
      = [⟨"l1", "a", "b", "r", mkRat 1 10, false⟩])

/-! ### Lemmas: tag updates (claim C4) -/

theorem assocHas_iff_mem_keys {κ β : Type} [DecidableEq κ]
    (m : List (κ × β)) (k : κ) :
    assocHas m k = true ↔ k ∈ m.map Prod.fst := by
  simp only [assocHas, List.any_eq_true, List.mem_map]
  constructor
  · rintro ⟨p, hp, he⟩
    exact ⟨p, hp, by simpa using he⟩
  · rintro ⟨p, hp, he⟩
    exact ⟨p, hp, by simpa using he⟩

theorem assocLookup_append_left {κ β : Type} [DecidableEq κ] (k : κ) :
    ∀ (m l : List (κ × β)) (v : β),
      assocLookup k m = some v → assocLookup k (m ++ l) = some v := by
  intro m
  induction m with
  | nil =>
    intro l v h
    simp [assocLookup] at h
  | cons p t ih =>
    intro l v h
    rw [List.cons_append]
    unfold assocLookup at h ⊢
    by_cases hp : p.1 = k
    · rw [if_pos hp] at h ⊢
      exact h
    · rw [if_neg hp] at h ⊢
      exact ih l v h

theorem tagFold_has (now : Int) :
    ∀ (tags : List String) (m : List (String × GraphNode)) (k : String),
      assocHas (tags.foldl (tagStep now) m) k = true ↔
        (assocHas m k = true ∨ ∃ t ∈ tags, k = tagNodeId t) := by
  intro tags
  induction tags with
  | nil => simp
  | cons t ts ih =>
    intro m k
    simp only [List.foldl_cons]
    rw [ih]
    unfold tagStep
    by_cases h : assocHas m (tagNodeId t) = true
    · rw [if_pos h]
      constructor
      · rintro (hm | ⟨t', ht', hk⟩)
        · exact Or.inl hm
        · exact Or.inr ⟨t', List.mem_cons_of_mem t ht', hk⟩
      · rintro (hm | ⟨t', ht', hk⟩)
        · exact Or.inl hm
        · rcases List.mem_cons.mp ht' with he | hmem
          · subst he
            subst hk
            exact Or.inl h
          · exact Or.inr ⟨t', hmem, hk⟩
    · rw [if_neg h]
      have hext : ∀ k' : String,
          assocHas (m ++ [(tagNodeId t,
            (⟨tagNodeId t, "Tag", [("name", t)], now, now⟩ : GraphNode))]) k' = true
          ↔ (assocHas m k' = true ∨ k' = tagNodeId t) := by
        intro k'
        simp only [assocHas, List.any_append, Bool.or_eq_true, List.any_cons,
          List.any_nil, Bool.or_false, decide_eq_true_eq]
        constructor
        · rintro (hm | he)
          · exact Or.inl hm
          · exact Or.inr he.symm
        · rintro (hm | he)
          · exact Or.inl hm
          · exact Or.inr he.symm
      constructor
      · rintro (hm | ⟨t', ht', hk⟩)
        · rcases (hext k).mp hm with hm2 | he
          · exact Or.inl hm2
          · exact Or.inr ⟨t, List.mem_cons_self t ts, he⟩
        · exact Or.inr ⟨t', List.mem_cons_of_mem t ht', hk⟩
      · rintro (hm | ⟨t', ht', hk⟩)
        · exact Or.inl ((hext k).mpr (Or.inl hm))
        · rcases List.mem_cons.mp ht' with he | hmem
          · subst he
            exact Or.inl ((hext k).mpr (Or.inr hk))
          · exact Or.inr ⟨t', hmem, hk⟩

theorem tagFold_lookup_preserve (now : Int) :
    ∀ (tags : List String) (m : List (String × GraphNode)) (k : String)
      (v : GraphNode),
      assocLookup k m = some v →
      assocLookup k (tags.foldl (tagStep now) m) = some v := by
  intro tags
  induction tags with
  | nil => exact fun m k v h => h
  | cons t ts ih =>
    intro m k v h
    simp only [List.foldl_cons]
    apply ih
    unfold tagStep
    by_cases hh : assocHas m (tagNodeId t) = true
    · rw [if_pos hh]
      exact h
    · rw [if_neg hh]
      exact assocLookup_append_left k m _ v h

theorem tagFold_stable (now : Int) :
    ∀ (tags : List String) (m : List (String × GraphNode)),
      (∀ t ∈ tags, assocHas m (tagNodeId t) = true) →
      tags.foldl (tagStep now) m = m := by
  intro tags
  induction tags with
  | nil => exact fun m _ => rfl
  | cons t ts ih =>
    intro m h
    simp only [List.foldl_cons]
    have hstep : tagStep now m t = m := by
      unfold tagStep
      rw [if_pos (h t (List.mem_cons_self t ts))]
    rw [hstep]
    exact ih m (fun t' ht' => h t' (List.mem_cons_of_mem t ht'))

theorem tagFold_keys (now : Int) :
    ∀ (tags : List String) (m : List (String × GraphNode)),
      (tags.foldl (tagStep now) m).map Prod.fst =
        (tags.map tagNodeId).foldl dfsStep (m.map Prod.fst) := by
  intro tags
  induction tags with
  | nil => exact fun m => rfl
  | cons t ts ih =>
    intro m
    simp only [List.foldl_cons, List.map_cons]
    rw [ih]
    have hstep : (tagStep now m t).map Prod.fst
        = dfsStep (m.map Prod.fst) (tagNodeId t) := by
      unfold tagStep dfsStep
      by_cases h : assocHas m (tagNodeId t) = true
      · rw [if_pos h, if_pos ((assocHas_iff_mem_keys m (tagNodeId t)).mp h)]
      · rw [if_neg h, if_neg (fun hm =>
          h ((assocHas_iff_mem_keys m (tagNodeId t)).mpr hm))]
        simp
    rw [hstep]

theorem tagNodeId_injective : Function.Injective tagNodeId := by
  intro a b h
  unfold tagNodeId at h
  have hd : ("tag_" ++ a).data = ("tag_" ++ b).data := congrArg String.data h
  rw [String.data_append, String.data_append] at hd
  have hab := List.append_cancel_left hd
  cases a with
  | mk la =>
    cases b with
    | mk lb =>
      simp only at hab
      rw [hab]

theorem handleTagUpdate_twice (s : GraphState) (now1 now2 : Int)
    (tags : List String) :
    handleTagUpdate (handleTagUpdate s now1 tags) now2 tags
      = handleTagUpdate s now1 tags := by
  unfold handleTagUpdate
  simp only
  congr 1
  apply tagFold_stable
  intro t ht
  rw [tagFold_has]
  exact Or.inr ⟨t, ht, rfl⟩

/-- C4 (amended): each tag in a tag update yields a Tag node keyed by
`tag_<tag>` — the RAW tag string, stable but NOT lowercased — created iff no
node with that key exists (existing nodes are never overwritten); applying
the same tag update twice equals applying it once, and on an empty store it
yields exactly one Tag node per distinct tag. -/
theorem C4_tag_idempotence_amended :
    (∀ (s : GraphState) (now : Int) (tags : List String) (t : String),
      t ∈ tags →
      assocHas (handleTagUpdate s now tags).nodes (tagNodeId t) = true) ∧
    (∀ (s : GraphState) (now : Int) (tags : List String) (k : String)
        (v : GraphNode),
      assocLookup k s.nodes = some v →
      assocLookup k (handleTagUpdate s now tags).nodes = some v) ∧
    (∀ (s : GraphState) (now : Int) (tags : List String) (k : String),
      assocHas (handleTagUpdate s now tags).nodes k = true →
      assocHas s.nodes k = true ∨ ∃ t ∈ tags, k = tagNodeId t) ∧
    (∀ (s : GraphState) (t1 t2 : Int) (tags : List String),
      applyUpdates s [(.tag tags, t1), (.tag tags, t2)]
        = applyUpdates s [(.tag tags, t1)]) ∧
    (∀ (tags : List String) (t1 t2 : Int),
      ((applyUpdates initialGraph
          [(.tag tags, t1), (.tag tags, t2)]).nodes).length
        = (distinctFirstSeen tags).length) := by
  refine ⟨?_, ?_, ?_, ?_, ?_⟩
  · intro s now tags t ht
    unfold handleTagUpdate
    simp only
    rw [tagFold_has]
    exact Or.inr ⟨t, ht, rfl⟩
  · intro s now tags k v h
    unfold handleTagUpdate
    simp only
    exact tagFold_lookup_preserve now tags s.nodes k v h
  · intro s now tags k h
    unfold handleTagUpdate at h
    simp only at h
    exact (tagFold_has now tags s.nodes k).mp h
  · intro s t1 t2 tags
    have : applyUpdates s [(.tag tags, t1), (.tag tags, t2)]
        = handleTagUpdate (handleTagUpdate s t1 tags) t2 tags := rfl
    rw [this, handleTagUpdate_twice]
    rfl
  · intro tags t1 t2
    have h2 : applyUpdates initialGraph [(.tag tags, t1), (.tag tags, t2)]
        = handleTagUpdate (handleTagUpdate initialGraph t1 tags) t2 tags := rfl
    rw [h2, handleTagUpdate_twice]
    have hnodes : (handleTagUpdate initialGraph t1 tags).nodes
        = tags.foldl (tagStep t1) [] := rfl
    rw [hnodes]
    have hlen : (tags.foldl (tagStep t1) []).length
        = ((tags.foldl (tagStep t1) []).map Prod.fst).length :=
      (List.length_map _ _).symm
    rw [hlen]
    have hkeys := tagFold_keys t1 tags []
    simp only [List.map_nil] at hkeys
    rw [hkeys]
    have hdfs : (tags.map tagNodeId).foldl dfsStep ([] : List String)
        = distinctFirstSeen (tags.map tagNodeId) := rfl
    rw [hdfs, distinctFirstSeen_map tagNodeId tagNodeId_injective,
      List.length_map]

/-- Witness for C4 at concrete tag updates. -/
theorem C4_witness :
    assocHas (handleTagUpdate initialGraph 0 ["a", "b"]).nodes
      (tagNodeId "a") = true ∧
    assocLookup "n" (handleTagUpdate
        ⟨[("n", ⟨"n", "Note", [], 0, 0⟩)], []⟩ 0 ["a"]).nodes
      = some ⟨"n", "Note", [], 0, 0⟩ ∧
    (assocHas initialGraph.nodes "tag_a" = true ∨
      ∃ t ∈ ["a"], "tag_a" = tagNodeId t) :=
  ⟨C4_tag_idempotence_amended.1 initialGraph 0 ["a", "b"] "a" (by decide),
   C4_tag_idempotence_amended.2.1 ⟨[("n", ⟨"n", "Note", [], 0, 0⟩)], []⟩ 0
     ["a"] "n" ⟨"n", "Note", [], 0, 0⟩ (by decide),
   C4_tag_idempotence_amended.2.2.1 initialGraph 0 ["a"] "tag_a" (by decide)⟩

/-- C4 (counterexample): tag keys are not lowercased — tag "Foo" creates
the key "tag_Foo", and the tags "Foo" and "foo" yield two distinct Tag
nodes where lowercase normalisation would deduplicate them into one. -/
theorem C4_counterexample :
    (applyUpdate initialGraph (.tag ["Foo"]) 0).nodes.map Prod.fst
      = ["tag_Foo"] ∧
    "tag_Foo" ≠ "tag_foo" ∧
    (applyUpdate initialGraph (.tag ["Foo", "foo"]) 0).nodes.length = 2 :=
  ⟨by decide, by decide, by decide⟩

/-! ### Lemmas: update reconciler (claim C5) -/

/-- Non-`tag`, non-`link` updates ("others"): they must pass through the
reconciler unchanged. -/
def isOtherUpd (u : KGUpdate) : Bool := !isLinkUpd u && !isTagUpd u

/-- The link updates of a batch aimed at a given target. -/
def linkUps (us : List KGUpdate) (t : String) : List KGUpdate :=
  us.filter (fun u => isLinkUpd u && (linkTarget u == t))

/-- One comparison step of the link merge: keep the stronger update,
ties and non-improvements keep the incumbent. -/
def pickStep (o : Option KGUpdate) (u : KGUpdate) : Option KGUpdate :=
  match o with
  | none => some u
  | some b => if linkStrength u > linkStrength b then some u else some b

/-- Folding the comparison over a list of link updates. -/
def pickFold (o : Option KGUpdate) (l : List KGUpdate) : Option KGUpdate :=
  l.foldl pickStep o

theorem dedupTagsAux_cons_tag (seen : List (List String)) (tags : List String)
    (rest : List KGUpdate) :
    dedupTagsAux seen (KGUpdate.tag tags :: rest)
      = if tagKey tags ∈ seen then dedupTagsAux seen rest
        else KGUpdate.tag tags :: dedupTagsAux (tagKey tags :: seen) rest := rfl

theorem dedupTagsAux_cons_nontag (seen : List (List String)) (u : KGUpdate)
    (rest : List KGUpdate) (h : isTagUpd u = false) :
    dedupTagsAux seen (u :: rest) = u :: dedupTagsAux seen rest := by
  cases u with
  | tag tags => simp [isTagUpd] at h
  | note d => rfl
  | link a b c d e => rfl
  | learning d => rfl
  | metaPattern d => rfl

theorem dedupTagsAux_filter (p : KGUpdate → Bool)
    (hp : ∀ tags, p (.tag tags) = false) :
    ∀ (us : List KGUpdate) (seen : List (List String)),
      (dedupTagsAux seen us).filter p = us.filter p := by
  intro us
  induction us with
  | nil => intro _; rfl
  | cons u rest ih =>
    intro seen
    by_cases htag : isTagUpd u = true
    · cases u with
      | tag tags =>
        rw [dedupTagsAux_cons_tag]
        by_cases hseen : tagKey tags ∈ seen
        · rw [if_pos hseen, ih seen, List.filter_cons]
          rw [hp tags]
          simp
        · rw [if_neg hseen, List.filter_cons, List.filter_cons, hp tags]
          simp only [Bool.false_eq_true, if_false]
          exact ih (tagKey tags :: seen)
      | note d => simp [isTagUpd] at htag
      | link a b c d e => simp [isTagUpd] at htag
      | learning d => simp [isTagUpd] at htag
      | metaPattern d => simp [isTagUpd] at htag
    · rw [dedupTagsAux_cons_nontag seen u rest (by simpa using htag)]
      rw [List.filter_cons, List.filter_cons, ih seen]

theorem assocLookup_eq_none_iff {κ β : Type} [DecidableEq κ] (k : κ) :
    ∀ m : List (κ × β), assocLookup k m = none ↔ k ∉ m.map Prod.fst := by
  intro m
  induction m with
  | nil => simp [assocLookup]
  | cons p t ih =>
    unfold assocLookup
    by_cases hp : p.1 = k
    · rw [if_pos hp]
      simp [hp]
    · rw [if_neg hp]
      rw [ih]
      simp only [List.map_cons, List.mem_cons]
      constructor
      · intro h hm
        rcases hm with he | hm
        · exact hp he.symm
        · exact h hm
      · intro h hm
        exact h (Or.inr hm)

theorem assocLookup_cons {κ β : Type} [DecidableEq κ] (k : κ) (p : κ × β)
    (ps : List (κ × β)) :
    assocLookup k (p :: ps) = if p.1 = k then some p.2 else assocLookup k ps :=
  rfl

theorem assocLookup_append_none {κ β : Type} [DecidableEq κ] (k : κ)
    (m l : List (κ × β)) (h : assocLookup k m = none) :
    assocLookup k (m ++ l) = assocLookup k l := by
  induction m with
  | nil => rfl
  | cons p t ih =>
    rw [assocLookup_cons] at h
    by_cases hp : p.1 = k
    · rw [if_pos hp] at h
      cases h
    · rw [if_neg hp] at h
      rw [List.cons_append, assocLookup_cons, if_neg hp]
      exact ih h

theorem assocLookup_single {κ β : Type} [DecidableEq κ] (k : κ) (v : β) :
    assocLookup k [(k, v)] = some v := by
  unfold assocLookup
  rw [if_pos rfl]

theorem assocLookup_single_ne {κ β : Type} [DecidableEq κ] (k k' : κ) (v : β)
    (h : k' ≠ k) : assocLookup k [(k', v)] = none := by
  unfold assocLookup
  rw [if_neg h]
  rfl

theorem assocLookup_isSome_has {κ β : Type} [DecidableEq κ] (k : κ)
    (m : List (κ × β)) (v : β) (h : assocLookup k m = some v) :
    assocHas m k = true := by
  by_cases hh : assocHas m k = true
  · exact hh
  · exfalso
    have : k ∉ m.map Prod.fst := by
      intro hm
      exact hh ((assocHas_iff_mem_keys m k).mpr hm)
    rw [← assocLookup_eq_none_iff k m] at this
    rw [this] at h
    cases h

theorem assocHas_lookup_isSome {κ β : Type} [DecidableEq κ] (k : κ)
    (m : List (κ × β)) (h : assocHas m k = true) :
    ∃ w, assocLookup k m = some w := by
  cases hl : assocLookup k m with
  | some w => exact ⟨w, rfl⟩
  | none =>
    exfalso
    exact ((assocLookup_eq_none_iff k m).mp hl)
      ((assocHas_iff_mem_keys m k).mp h)

theorem mapReplace_lookup_self {κ β : Type} [DecidableEq κ] (k : κ) (v : β) :
    ∀ m : List (κ × β),
      assocLookup k (m.map (fun p => if p.1 = k then (k, v) else p))
        = (assocLookup k m).map (fun _ => v) := by
  intro m
  induction m with
  | nil => rfl
  | cons p t ih =>
    simp only [List.map_cons]
    by_cases hp : p.1 = k
    · rw [if_pos hp]
      unfold assocLookup
      rw [if_pos rfl, if_pos hp]
      rfl
    · rw [if_neg hp]
      unfold assocLookup
      rw [if_neg hp, if_neg hp]
      exact ih

theorem mapReplace_lookup_ne {κ β : Type} [DecidableEq κ] (k k' : κ) (v : β)
    (h : k' ≠ k) :
    ∀ m : List (κ × β),
      assocLookup k (m.map (fun p => if p.1 = k' then (k', v) else p))
        = assocLookup k m := by
  intro m
  induction m with
  | nil => rfl
  | cons p t ih =>
    simp only [List.map_cons]
    by_cases hp : p.1 = k'
    · rw [if_pos hp]
      unfold assocLookup
      rw [if_neg h, if_neg (fun he : p.1 = k => h (hp ▸ he ▸ rfl))]
      exact ih
    · rw [if_neg hp]
      unfold assocLookup
      by_cases hpk : p.1 = k
      · rw [if_pos hpk, if_pos hpk]
      · rw [if_neg hpk, if_neg hpk]
        exact ih

theorem mapReplace_keys {κ β : Type} [DecidableEq κ] (k : κ) (v : β) :
    ∀ m : List (κ × β),
      (m.map (fun p => if p.1 = k then (k, v) else p)).map Prod.fst
        = m.map Prod.fst := by
  intro m
  induction m with
  | nil => rfl
  | cons p t ih =>
    simp only [List.map_cons]
    by_cases hp : p.1 = k
    · rw [if_pos hp, ih]
      simp [hp]
    · rw [if_neg hp, ih]

theorem assocSet_lookup_self {κ β : Type} [DecidableEq κ] (k : κ)
    (m : List (κ × β)) (v : β) (h : assocHas m k = true) :
    assocLookup k (assocSet m k v) = some v := by
  unfold assocSet
  rw [if_pos h, mapReplace_lookup_self]
  rcases assocHas_lookup_isSome k m h with ⟨w, hw⟩
  rw [hw]
  rfl

theorem assocSet_lookup_ne {κ β : Type} [DecidableEq κ] (k k' : κ)
    (m : List (κ × β)) (v : β) (h : k' ≠ k) :
    assocLookup k (assocSet m k' v) = assocLookup k m := by
  unfold assocSet
  by_cases hh : assocHas m k' = true
  · rw [if_pos hh, mapReplace_lookup_ne k k' v h]
  · rw [if_neg hh]
    cases hk : assocLookup k m with
    | none => rw [assocLookup_append_none k m _ hk, assocLookup_single_ne k k' v h]
    | some v' => exact assocLookup_append_left k m _ v' hk

theorem assocSet_keys_of_has {κ β : Type} [DecidableEq κ] (k : κ)
    (m : List (κ × β)) (v : β) (h : assocHas m k = true) :
    (assocSet m k v).map Prod.fst = m.map Prod.fst := by
  unfold assocSet
  rw [if_pos h, mapReplace_keys]

theorem assocSet_mem {κ β : Type} [DecidableEq κ] (k : κ)
    (m : List (κ × β)) (v : β) (p : κ × β) (hp : p ∈ assocSet m k v)
    (h : assocHas m k = true) : p = (k, v) ∨ p ∈ m := by
  unfold assocSet at hp
  rw [if_pos h] at hp
  rcases List.mem_map.mp hp with ⟨q, hq, he⟩
  by_cases hqk : q.1 = k
  · rw [if_pos hqk] at he
    exact Or.inl he.symm
  · rw [if_neg hqk] at he
    exact Or.inr (by rw [← he]; exact hq)

theorem mergeStep_nonlink (acc : List (String × KGUpdate) × List KGUpdate)
    (u : KGUpdate) (h : isLinkUpd u = false) :
    mergeStep acc u = (acc.1, acc.2 ++ [u]) := by
  cases u with
  | link a b c d e => simp [isLinkUpd] at h
  | note d => rfl
  | tag t => rfl
  | learning d => rfl
  | metaPattern d => rfl

theorem mergeStep_link_eq (acc : List (String × KGUpdate) × List KGUpdate)
    (src tgt rel : String) (str : ℚ) (bid : Bool) :
    mergeStep acc (.link src tgt rel str bid)
      = match assocLookup tgt acc.1 with
        | some existing =>
          if str > linkStrength existing then
            (assocSet acc.1 tgt (.link src tgt rel str bid), acc.2)
          else acc
        | none => (acc.1 ++ [(tgt, .link src tgt rel str bid)], acc.2) := rfl

theorem mergeFold_snd :
    ∀ (us : List KGUpdate) (acc : List (String × KGUpdate) × List KGUpdate),
      (us.foldl mergeStep acc).2
        = acc.2 ++ us.filter (fun u => !isLinkUpd u) := by
  intro us
  induction us with
  | nil => intro acc; simp
  | cons u rest ih =>
    intro acc
    simp only [List.foldl_cons, List.filter_cons]
    rw [ih (mergeStep acc u)]
    by_cases h : isLinkUpd u = true
    · have hsnd : (mergeStep acc u).2 = acc.2 := by
        cases u with
        | link src tgt rel str bid =>
          rw [mergeStep_link_eq]
          cases assocLookup tgt acc.1 with
          | none => rfl
          | some ex =>
            dsimp only
            by_cases hgt : str > linkStrength ex
            · rw [if_pos hgt]
            · rw [if_neg hgt]
        | note d => simp [isLinkUpd] at h
        | tag t => simp [isLinkUpd] at h
        | learning d => simp [isLinkUpd] at h
        | metaPattern d => simp [isLinkUpd] at h
      rw [hsnd]
      simp [h]
    · have hu : isLinkUpd u = false := by simpa using h
      rw [mergeStep_nonlink acc u hu]
      simp [hu]

/-- Invariant of the link map: every entry holds a link update keyed by its
own target, and keys are distinct. -/
def MergeInv (m : List (String × KGUpdate)) : Prop :=
  (∀ p ∈ m, isLinkUpd p.2 = true ∧ linkTarget p.2 = p.1) ∧
    (m.map Prod.fst).Nodup

theorem mergeStep_inv (acc : List (String × KGUpdate) × List KGUpdate)
    (u : KGUpdate) (h : MergeInv acc.1) : MergeInv (mergeStep acc u).1 := by
  cases u with
  | link src tgt rel str bid =>
    rw [mergeStep_link_eq]
    cases hl : assocLookup tgt acc.1 with
    | none =>
      dsimp only
      constructor
      · intro p hp
        rcases List.mem_append.mp hp with hm | hm
        · exact h.1 p hm
        · have : p = (tgt, KGUpdate.link src tgt rel str bid) := by simpa using hm
          subst this
          exact ⟨rfl, rfl⟩
      · rw [List.map_append]
        rw [List.nodup_append]
        refine ⟨h.2, List.nodup_singleton _, ?_⟩
        intro x hx hx2
        have hxe : x = tgt := by simpa using hx2
        rw [hxe] at hx
        exact (assocLookup_eq_none_iff tgt acc.1).mp hl hx
    | some ex =>
      dsimp only
      by_cases hgt : str > linkStrength ex
      · rw [if_pos hgt]
        have hhas := assocLookup_isSome_has tgt acc.1 ex hl
        constructor
        · intro p hp
          rcases assocSet_mem tgt acc.1 _ p hp hhas with he | hm
          · subst he
            exact ⟨rfl, rfl⟩
          · exact h.1 p hm
        · rw [assocSet_keys_of_has tgt acc.1 _ hhas]
          exact h.2
      · rw [if_neg hgt]
        exact h
  | note d => exact h
  | tag t => exact h
  | learning d => exact h
  | metaPattern d => exact h

theorem mergeFold_inv :
    ∀ (us : List KGUpdate) (acc : List (String × KGUpdate) × List KGUpdate),
      MergeInv acc.1 → MergeInv (us.foldl mergeStep acc).1 := by
  intro us
  induction us with
  | nil => exact fun acc h => h
  | cons u rest ih =>
    intro acc h
    simp only [List.foldl_cons]
    exact ih (mergeStep acc u) (mergeStep_inv acc u h)

theorem pickFold_cons (o : Option KGUpdate) (u : KGUpdate)
    (l : List KGUpdate) : pickFold o (u :: l) = pickFold (pickStep o u) l := rfl

theorem mergeFold_lookup :
    ∀ (us : List KGUpdate) (acc : List (String × KGUpdate) × List KGUpdate)
      (t : String),
      assocLookup t (us.foldl mergeStep acc).1
        = pickFold (assocLookup t acc.1) (linkUps us t) := by
  intro us
  induction us with
  | nil => intro acc t; rfl
  | cons u rest ih =>
    intro acc t
    simp only [List.foldl_cons]
    rw [ih (mergeStep acc u)]
    by_cases hlink : isLinkUpd u = true
    · cases u with
      | link src tgt rel str bid =>
        by_cases htgt : tgt = t
        · subst htgt
          have hups : linkUps (KGUpdate.link src tgt rel str bid :: rest) tgt
              = KGUpdate.link src tgt rel str bid :: linkUps rest tgt := by
            unfold linkUps
            rw [List.filter_cons]
            simp [isLinkUpd, linkTarget]
          rw [hups, pickFold_cons]
          congr 1
          rw [mergeStep_link_eq]
          cases hl : assocLookup tgt acc.1 with
          | none =>
            dsimp only [pickStep]
            rw [assocLookup_append_none tgt acc.1 _ hl, assocLookup_single]
          | some ex =>
            dsimp only [pickStep]
            rw [show linkStrength (KGUpdate.link src tgt rel str bid) = str
              from rfl]
            by_cases hgt : str > linkStrength ex
            · rw [if_pos hgt, if_pos hgt]
              exact assocSet_lookup_self tgt acc.1 _
                (assocLookup_isSome_has tgt acc.1 ex hl)
            · rw [if_neg hgt, if_neg hgt]
              exact hl
        · have hups : linkUps (KGUpdate.link src tgt rel str bid :: rest) t
              = linkUps rest t := by
            unfold linkUps
            rw [List.filter_cons]
            have : ((tgt : String) == t) = false := by
              simpa using htgt
            simp [isLinkUpd, linkTarget, this]
          rw [hups]
          congr 1
          rw [mergeStep_link_eq]
          cases hl : assocLookup tgt acc.1 with
          | none =>
            dsimp only
            cases hk : assocLookup t acc.1 with
            | none =>
              rw [assocLookup_append_none t acc.1 _ hk,
                assocLookup_single_ne t tgt _ htgt]
            | some v =>
              exact assocLookup_append_left t acc.1 _ v hk
          | some ex =>
            dsimp only
            by_cases hgt : str > linkStrength ex
            · rw [if_pos hgt]
              exact assocSet_lookup_ne t tgt acc.1 _ htgt
            · rw [if_neg hgt]
      | note d => simp [isLinkUpd] at hlink
      | tag tg => simp [isLinkUpd] at hlink
      | learning d => simp [isLinkUpd] at hlink
      | metaPattern d => simp [isLinkUpd] at hlink
    · have hu : isLinkUpd u = false := by simpa using hlink
      have hups : linkUps (u :: rest) t = linkUps rest t := by
        unfold linkUps
        rw [List.filter_cons]
        simp [hu]
      rw [hups, mergeStep_nonlink acc u hu]

theorem pickStep_some (b : KGUpdate) (u : KGUpdate) :
    pickStep (some b) u
      = some (if linkStrength u > linkStrength b then u else b) := by
  dsimp only [pickStep]
  by_cases h : linkStrength u > linkStrength b
  · rw [if_pos h, if_pos h]
  · rw [if_neg h, if_neg h]

theorem pickFold_some_ne_none :
    ∀ (l : List KGUpdate) (b : KGUpdate), pickFold (some b) l ≠ none := by
  intro l
  induction l with
  | nil =>
    intro b h
    cases h
  | cons u rest ih =>
    intro b
    rw [pickFold_cons, pickStep_some]
    exact ih _

theorem pickFold_none_eq_none_iff (l : List KGUpdate) :
    pickFold none l = none ↔ l = [] := by
  cases l with
  | nil => simp [pickFold]
  | cons u rest =>
    constructor
    · intro h
      rw [pickFold_cons] at h
      exact absurd h (pickFold_some_ne_none rest u)
    · intro h
      cases h

theorem pickFold_max :
    ∀ (l : List KGUpdate) (b u : KGUpdate), pickFold (some b) l = some u →
      (u = b ∨ u ∈ l) ∧ linkStrength b ≤ linkStrength u ∧
        ∀ v ∈ l, linkStrength v ≤ linkStrength u := by
  intro l
  induction l with
  | nil =>
    intro b u h
    have hb : b = u := by
      simpa [pickFold] using h
    subst hb
    exact ⟨Or.inl rfl, le_refl _, fun v hv => absurd hv (List.not_mem_nil v)⟩
  | cons w rest ih =>
    intro b u h
    rw [pickFold_cons, pickStep_some] at h
    by_cases hgt : linkStrength w > linkStrength b
    · rw [if_pos hgt] at h
      rcases ih w u h with ⟨hmem, hble, hall⟩
      refine ⟨?_, ?_, ?_⟩
      · rcases hmem with he | hm
        · exact Or.inr (he ▸ List.mem_cons_self w rest)
        · exact Or.inr (List.mem_cons_of_mem w hm)
      · exact le_trans (le_of_lt hgt) hble
      · intro v hv
        rcases List.mem_cons.mp hv with he | hm
        · exact he ▸ hble
        · exact hall v hm
    · rw [if_neg hgt] at h
      rcases ih b u h with ⟨hmem, hble, hall⟩
      refine ⟨?_, hble, ?_⟩
      · rcases hmem with he | hm
        · exact Or.inl he
        · exact Or.inr (List.mem_cons_of_mem w hm)
      · intro v hv
        rcases List.mem_cons.mp hv with he | hm
        · rw [he]
          exact le_trans (not_lt.mp hgt) hble
        · exact hall v hm

theorem pickFold_none_max (l : List KGUpdate) (u : KGUpdate)
    (h : pickFold none l = some u) :
    u ∈ l ∧ ∀ v ∈ l, linkStrength v ≤ linkStrength u := by
  cases l with
  | nil => cases h
  | cons w rest =>
    rw [pickFold_cons] at h
    rcases pickFold_max rest w u h with ⟨hmem, hble, hall⟩
    constructor
    · rcases hmem with he | hm
      · exact he ▸ List.mem_cons_self w rest
      · exact List.mem_cons_of_mem w hm
    · intro v hv
      rcases List.mem_cons.mp hv with he | hm
      · exact he ▸ hble
      · exact hall v hm

theorem assocLookup_of_mem_nodup {κ β : Type} [DecidableEq κ] :
    ∀ (m : List (κ × β)), (m.map Prod.fst).Nodup → ∀ p ∈ m,
      assocLookup p.1 m = some p.2 := by
  intro m
  induction m with
  | nil => intro _ p hp; cases hp
  | cons q t ih =>
    intro hn p hp
    rw [assocLookup_cons]
    simp only [List.map_cons, List.nodup_cons] at hn
    rcases List.mem_cons.mp hp with he | hm
    · subst he
      rw [if_pos rfl]
    · by_cases hq : q.1 = p.1
      · exfalso
        exact hn.1 (hq ▸ List.mem_map.mpr ⟨p, hm, rfl⟩)
      · rw [if_neg hq]
        exact ih hn.2 p hm

theorem isOtherUpd_not_link (u : KGUpdate) (h : isOtherUpd u = true) :
    isLinkUpd u = false := by
  unfold isOtherUpd at h
  by_cases hb : isLinkUpd u = true
  · rw [hb] at h
    simp at h
  · simpa using hb

theorem countP_assoc_keyed (t : String) :
    ∀ m : List (String × KGUpdate), (m.map Prod.fst).Nodup →
      (∀ p ∈ m, isLinkUpd p.2 = true ∧ linkTarget p.2 = p.1) →
      (m.map Prod.snd).countP (fun u => isLinkUpd u && (linkTarget u == t))
        = if t ∈ m.map Prod.fst then 1 else 0 := by
  intro m
  induction m with
  | nil => intro _ _; rfl
  | cons p m ih =>
    intro hn hwf
    have hp := hwf p (List.mem_cons_self p m)
    simp only [List.map_cons, List.nodup_cons] at hn
    simp only [List.map_cons, List.countP_cons, List.mem_cons]
    rw [ih hn.2 (fun q hq => hwf q (List.mem_cons_of_mem p hq))]
    by_cases ht : p.1 = t
    · have hpred : (isLinkUpd p.2 && (linkTarget p.2 == t)) = true := by
        rw [hp.1, hp.2, ht]
        simp
      have htail : t ∉ m.map Prod.fst := ht ▸ hn.1
      rw [hpred]
      simp [ht, htail]
    · have hpred : (isLinkUpd p.2 && (linkTarget p.2 == t)) = false := by
        rw [hp.1, hp.2]
        simpa using ht
      rw [hpred]
      have : ¬ (t = p.1 ∨ t ∈ m.map Prod.fst) ↔ ¬ (t ∈ m.map Prod.fst) := by
        constructor
        · intro h hm
          exact h (Or.inr hm)
        · intro h hm
          rcases hm with he | hm
          · exact ht he.symm
          · exact h hm
      by_cases hmem : t ∈ m.map Prod.fst
      · simp [hmem]
      · simp [hmem, show ¬ (t = p.1) from fun he => ht he.symm]

theorem linkUps_dedup (us : List KGUpdate) (t : String) :
    linkUps (dedupTagsAux [] us) t = linkUps us t := by
  unfold linkUps
  exact dedupTagsAux_filter _ (fun tags => by simp [isLinkUpd, linkTarget]) us []

theorem resolveConflicts_eq (us : List KGUpdate) :
    resolveConflicts us
      = ((dedupTagsAux [] us).foldl mergeStep ([], [])).2
        ++ ((dedupTagsAux [] us).foldl mergeStep ([], [])).1.map Prod.snd := rfl

theorem mergeInv_start : MergeInv (([], ([] : List KGUpdate)) :
    List (String × KGUpdate) × List KGUpdate).1 :=
  ⟨fun p hp => absurd hp (List.not_mem_nil p), List.nodup_nil⟩

theorem filter_other_of_filter_nonlink (l : List KGUpdate) :
    (l.filter (fun u => !isLinkUpd u)).filter isOtherUpd
      = l.filter isOtherUpd := by
  induction l with
  | nil => rfl
  | cons u rest ih =>
    rw [List.filter_cons]
    by_cases h : isLinkUpd u = true
    · have h1 : (!isLinkUpd u) = false := by
        rw [h]
        rfl
      have h2 : isOtherUpd u = false := by
        unfold isOtherUpd
        rw [h]
        rfl
      rw [h1]
      simp only [Bool.false_eq_true, if_false]
      rw [ih, List.filter_cons, h2]
      simp
    · have h1 : (!isLinkUpd u) = true := by
        cases hb : isLinkUpd u
        · rfl
        · exact absurd hb h
      rw [h1]
      simp only [if_true]
      rw [List.filter_cons, List.filter_cons, ih]

/-- C5: the Reconciler passes all non-tag, non-link updates through
unchanged in relative order; every retained link update comes from the
batch and carries the maximal strength among the batch's link updates for
its target; per target, exactly one link update survives (when any was
present); and on the concrete pair of strengths 0.3/0.8 for one target,
only the 0.8 update is kept. -/
theorem C5_link_merge :
    (∀ us : List KGUpdate,
      (resolveConflicts us).filter isOtherUpd = us.filter isOtherUpd) ∧
    (∀ (us : List KGUpdate) (u : KGUpdate),
      u ∈ resolveConflicts us → isLinkUpd u = true →
      u ∈ us ∧ ∀ v ∈ us, isLinkUpd v = true →
        linkTarget v = linkTarget u → linkStrength v ≤ linkStrength u) ∧
    (∀ (us : List KGUpdate) (t : String),
      (resolveConflicts us).countP
          (fun u => isLinkUpd u && (linkTarget u == t))
        = if us.countP (fun u => isLinkUpd u && (linkTarget u == t)) = 0
          then 0 else 1) ∧
    (resolveConflicts [.link "a" "t" "rel" (mkRat 3 10) false,
        .link "b" "t" "rel" (mkRat 8 10) false]
      = [.link "b" "t" "rel" (mkRat 8 10) false]) := by
  refine ⟨?_, ?_, ?_, by decide⟩
  · intro us
    rw [resolveConflicts_eq, List.filter_append, mergeFold_snd]
    simp only [List.nil_append]
    have hinv := mergeFold_inv (dedupTagsAux [] us) ([], []) mergeInv_start
    have h2 : ((((dedupTagsAux [] us).foldl mergeStep
        ([], [])).1.map Prod.snd).filter isOtherUpd) = [] := by
      rw [List.filter_eq_nil]
      intro u hu hother
      rcases List.mem_map.mp hu with ⟨p, hp, he⟩
      have hnl := isOtherUpd_not_link u hother
      rw [← he, (hinv.1 p hp).1] at hnl
      cases hnl
    rw [h2, List.append_nil, filter_other_of_filter_nonlink]
    exact dedupTagsAux_filter isOtherUpd (fun tags => rfl) us []
  · intro us u hu hlink
    rw [resolveConflicts_eq] at hu
    rcases List.mem_append.mp hu with hnl | hm
    · exfalso
      rw [mergeFold_snd] at hnl
      simp only [List.nil_append] at hnl
      have hmem := List.mem_filter.mp hnl
      rw [hlink] at hmem
      simpa using hmem.2
    · rcases List.mem_map.mp hm with ⟨p, hp, he⟩
      have hinv := mergeFold_inv (dedupTagsAux [] us) ([], []) mergeInv_start
      have hwf := hinv.1 p hp
      have hlp := assocLookup_of_mem_nodup _ hinv.2 p hp
      rw [mergeFold_lookup (dedupTagsAux [] us) ([], []) p.1] at hlp
      have hlp2 : pickFold none (linkUps (dedupTagsAux [] us) p.1)
          = some p.2 := hlp
      rcases pickFold_none_max _ _ hlp2 with ⟨hmem, hmax⟩
      rw [linkUps_dedup] at hmem hmax
      subst he
      constructor
      · exact (List.mem_filter.mp hmem).1
      · intro v hv hvl hvt
        apply hmax
        unfold linkUps
        rw [List.mem_filter]
        refine ⟨hv, ?_⟩
        rw [hvl, hvt, hwf.2]
        simp
  · intro us t
    rw [resolveConflicts_eq, List.countP_append, mergeFold_snd]
    simp only [List.nil_append]
    have hinv := mergeFold_inv (dedupTagsAux [] us) ([], []) mergeInv_start
    have hnl : (((dedupTagsAux [] us).filter
        (fun u => !isLinkUpd u)).countP
          (fun u => isLinkUpd u && (linkTarget u == t))) = 0 := by
      rw [List.countP_eq_zero]
      intro u hu
      have hmem := List.mem_filter.mp hu
      intro hpred
      rcases Bool.and_eq_true_iff.mp hpred with ⟨h1, _⟩
      rw [h1] at hmem
      simpa using hmem.2
    rw [hnl]
    have hmap : ((((dedupTagsAux [] us).foldl mergeStep
        ([], [])).1.map Prod.snd).countP
          (fun u => isLinkUpd u && (linkTarget u == t)))
        = if t ∈ (((dedupTagsAux [] us).foldl mergeStep
            ([], [])).1.map Prod.fst) then 1 else 0 :=
      countP_assoc_keyed t _ hinv.2 hinv.1
    rw [hmap]
    have hiff : (t ∈ (((dedupTagsAux [] us).foldl mergeStep
          ([], [])).1.map Prod.fst))
        ↔ ¬ (us.countP (fun u => isLinkUpd u && (linkTarget u == t)) = 0) := by
      rw [← not_iff_not]
      push_neg
      rw [← assocLookup_eq_none_iff t, mergeFold_lookup, ]
      have : assocLookup t (([], ([] : List KGUpdate)) :
          List (String × KGUpdate) × List KGUpdate).1 = none := rfl
      rw [this, pickFold_none_eq_none_iff, linkUps_dedup]
      unfold linkUps
      rw [List.countP_eq_length_filter]
      constructor
      · intro h
        rw [h]
        rfl
      · intro h
        exact List.length_eq_zero.mp h
    by_cases hz : us.countP (fun u => isLinkUpd u && (linkTarget u == t)) = 0
    · rw [if_pos hz, if_neg (fun hmem => (hiff.mp hmem) hz)]
    · rw [if_neg hz, if_pos (hiff.mpr hz)]

/-- Witness for C5 at the concrete 0.3/0.8 batch. -/
theorem C5_witness :
    (KGUpdate.link "b" "t" "rel" (mkRat 8 10) false)
        ∈ [KGUpdate.link "a" "t" "rel" (mkRat 3 10) false,
           KGUpdate.link "b" "t" "rel" (mkRat 8 10) false] ∧
    ∀ v ∈ [KGUpdate.link "a" "t" "rel" (mkRat 3 10) false,
           KGUpdate.link "b" "t" "rel" (mkRat 8 10) false],
      isLinkUpd v = true →
      linkTarget v
          = linkTarget (KGUpdate.link "b" "t" "rel" (mkRat 8 10) false) →
      linkStrength v
        ≤ linkStrength (KGUpdate.link "b" "t" "rel" (mkRat 8 10) false) :=
  C5_link_merge.2.1
    [KGUpdate.link "a" "t" "rel" (mkRat 3 10) false,
     KGUpdate.link "b" "t" "rel" (mkRat 8 10) false]
    (KGUpdate.link "b" "t" "rel" (mkRat 8 10) false) (by decide) (by decide)

/-! ### Lemmas: pattern extraction (claim C3) -/

/-- The accumulator update of `accessPairs.set`: from the default
`{count: 0, lastAccess: epoch}` on a fresh key, count + 1 and
`Math.max(lastAccess, activity1.timestamp)`. -/
def combineStep (o : Option (Nat × Int)) (t1 : Int) : Option (Nat × Int) :=
  match o with
  | none => some (1, mathMax 0 t1)
  | some (c, la) => some (c + 1, mathMax la t1)

/-- The first-activity timestamps of the qualifying iterations over a pair
list, per key. -/
def qualT1sOf (ps : List (Activity × Activity)) (k : String) :
    List Int :=
  (ps.filter
    (fun p => withinWindow p && joinKey p.1.noteId p.2.noteId = k)).map
      (fun p => p.1.timestamp)

theorem recordPair_lookup_self (k : String) (t1 : Int)
    (m : List (String × Nat × Int)) :
    assocLookup k (recordPair m k t1) = combineStep (assocLookup k m) t1 := by
  unfold recordPair
  by_cases h : assocHas m k = true
  · rw [if_pos h]
    have hmap : ∀ m2 : List (String × Nat × Int),
        assocLookup k (m2.map
            (fun e => if e.1 = k then (k, e.2.1 + 1, mathMax e.2.2 t1) else e))
          = (assocLookup k m2).map (fun v => (v.1 + 1, mathMax v.2 t1)) := by
      intro m2
      induction m2 with
      | nil => rfl
      | cons p t ih =>
        simp only [List.map_cons]
        by_cases hp : p.1 = k
        · rw [if_pos hp, assocLookup_cons, assocLookup_cons, if_pos rfl,
            if_pos hp]
          rfl
        · rw [if_neg hp, assocLookup_cons, assocLookup_cons, if_neg hp,
            if_neg hp]
          exact ih
    rw [hmap]
    rcases assocHas_lookup_isSome k m h with ⟨w, hw⟩
    rw [hw]
    rfl
  · rw [if_neg h]
    have hnone : assocLookup k m = none := by
      rw [assocLookup_eq_none_iff]
      intro hmem
      exact h ((assocHas_iff_mem_keys m k).mpr hmem)
    rw [assocLookup_append_none k m _ hnone, hnone, assocLookup_single]
    rfl

theorem recordMap_lookup_ne (k k' : String) (t1 : Int)
    (h : k' ≠ k) :
    ∀ m : List (String × Nat × Int),
      assocLookup k (m.map
          (fun e => if e.1 = k' then (k', e.2.1 + 1, mathMax e.2.2 t1) else e))
        = assocLookup k m := by
  intro m
  induction m with
  | nil => rfl
  | cons p t ih =>
    simp only [List.map_cons]
    by_cases hp : p.1 = k'
    · rw [if_pos hp, assocLookup_cons, assocLookup_cons,
        if_neg h, if_neg (fun he : p.1 = k => h (hp ▸ he ▸ rfl))]
      exact ih
    · rw [if_neg hp, assocLookup_cons, assocLookup_cons]
      by_cases hpk : p.1 = k
      · rw [if_pos hpk, if_pos hpk]
      · rw [if_neg hpk, if_neg hpk]
        exact ih

theorem recordPair_lookup_ne (k k' : String) (t1 : Int)
    (h : k' ≠ k) (m : List (String × Nat × Int)) :
    assocLookup k (recordPair m k' t1) = assocLookup k m := by
  unfold recordPair
  by_cases hh : assocHas m k' = true
  · rw [if_pos hh]
    exact recordMap_lookup_ne k k' t1 h m
  · rw [if_neg hh]
    cases hk : assocLookup k m with
    | none =>
      rw [assocLookup_append_none k m _ hk,
        assocLookup_single_ne k k' _ h]
    | some v => exact assocLookup_append_left k m _ v hk

theorem recordMap_keys (k : String) (t1 : Int) :
    ∀ m : List (String × Nat × Int),
      ((m.map
          (fun e => if e.1 = k then (k, e.2.1 + 1, mathMax e.2.2 t1) else e)).map
        Prod.fst) = m.map Prod.fst := by
  intro m
  induction m with
  | nil => rfl
  | cons p t ih =>
    by_cases hp : p.1 = k
    · simp [hp, ih]
    · simp [hp, ih]

theorem recordPair_keys (k : String) (t1 : Int)
    (m : List (String × Nat × Int)) :
    (recordPair m k t1).map Prod.fst
      = if assocHas m k = true then m.map Prod.fst
        else m.map Prod.fst ++ [k] := by
  unfold recordPair
  by_cases h : assocHas m k = true
  · rw [if_pos h, if_pos h]
    exact recordMap_keys k t1 m
  · rw [if_neg h, if_neg h]
    simp

theorem consFold_lookup :
    ∀ (ps : List (Activity × Activity))
      (m : List (String × Nat × Int)) (k : String),
      assocLookup k (ps.foldl consStep m)
        = (qualT1sOf ps k).foldl combineStep (assocLookup k m) := by
  intro ps
  induction ps with
  | nil => intro m k; rfl
  | cons p rest ih =>
    intro m k
    simp only [List.foldl_cons]
    rw [ih]
    unfold qualT1sOf
    rw [List.filter_cons]
    by_cases hw : withinWindow p = true
    · by_cases hk : joinKey p.1.noteId p.2.noteId = k
      · have hcond : (withinWindow p
            && joinKey p.1.noteId p.2.noteId = k) = true := by
          rw [hw, decide_eq_true hk]
          rfl
        rw [hcond]
        simp only [if_true, List.map_cons, List.foldl_cons]
        have hstep : consStep m p
            = recordPair m (joinKey p.1.noteId p.2.noteId) p.1.timestamp := by
          unfold consStep
          rw [if_pos hw]
        rw [hstep, hk, recordPair_lookup_self]
      · have hcond : (withinWindow p
            && joinKey p.1.noteId p.2.noteId = k) = false := by
          rw [hw, decide_eq_false hk]
          rfl
        rw [hcond]
        simp only [Bool.false_eq_true, if_false]
        have hstep : consStep m p
            = recordPair m (joinKey p.1.noteId p.2.noteId) p.1.timestamp := by
          unfold consStep
          rw [if_pos hw]
        rw [hstep, recordPair_lookup_ne k _ _ hk]
    · have hw2 : withinWindow p = false := by
        simpa using hw
      have hcond : (withinWindow p
          && joinKey p.1.noteId p.2.noteId = k) = false := by
        rw [hw2]
        rfl
      rw [hcond]
      simp only [Bool.false_eq_true, if_false]
      have hstep : consStep m p = m := by
        unfold consStep
        rw [hw2]
        rfl
      rw [hstep]

theorem combineFold_some :
    ∀ (ts : List Int) (c : Nat) (la : Int),
      ts.foldl combineStep (some (c, la))
        = some (c + ts.length, ts.foldl mathMax la) := by
  intro ts
  induction ts with
  | nil => intro c la; simp
  | cons t ts ih =>
    intro c la
    simp only [List.foldl_cons]
    have hcs : combineStep (some (c, la)) t = some (c + 1, mathMax la t) := rfl
    rw [hcs, ih]
    have hlen : c + 1 + ts.length = c + (t :: ts).length := by
      simp only [List.length_cons]
      omega
    rw [hlen]

theorem combineFold_none :
    ∀ ts : List Int, ts.foldl combineStep none
      = if ts = [] then none else some (ts.length, ts.foldl mathMax 0) := by
  intro ts
  cases ts with
  | nil => rfl
  | cons t ts =>
    simp only [List.foldl_cons]
    have hcs : combineStep none t = some (1, mathMax 0 t) := rfl
    rw [hcs, combineFold_some, if_neg (by simp)]
    have hlen : 1 + ts.length = (t :: ts).length := by
      simp only [List.length_cons]
      omega
    rw [hlen]

theorem consFold_keys_nodup :
    ∀ (ps : List (Activity × Activity))
      (m : List (String × Nat × Int)),
      (m.map Prod.fst).Nodup → ((ps.foldl consStep m).map Prod.fst).Nodup := by
  intro ps
  induction ps with
  | nil => exact fun m h => h
  | cons p rest ih =>
    intro m h
    simp only [List.foldl_cons]
    apply ih
    unfold consStep
    by_cases hw : withinWindow p = true
    · rw [if_pos hw, recordPair_keys]
      by_cases hh : assocHas m (joinKey p.1.noteId p.2.noteId) = true
      · rw [if_pos hh]
        exact h
      · rw [if_neg hh]
        rw [List.nodup_append]
        refine ⟨h, List.nodup_singleton _, ?_⟩
        intro x hx hx2
        have hxe : x = joinKey p.1.noteId p.2.noteId := by simpa using hx2
        rw [hxe] at hx
        exact hh ((assocHas_iff_mem_keys m _).mpr hx)
    · rw [if_neg hw]
      exact h

theorem extract_lookup (acts : List Activity) (k : String) :
    assocLookup k ((ordPairs acts).foldl consStep [])
      = if qualCount acts k = 0 then none
        else some (qualCount acts k, qualLastAccess acts k) := by
  rw [consFold_lookup]
  have hinit :
      assocLookup k ([] : List (String × Nat × Int)) = none := rfl
  rw [hinit, combineFold_none]
  have hq : qualT1sOf (ordPairs acts) k
      = (qualPairs acts k).map (fun p => p.1.timestamp) := rfl
  rw [hq, List.length_map]
  have hfold : ((qualPairs acts k).map (fun p => p.1.timestamp)).foldl mathMax 0
      = qualLastAccess acts k := by
    rw [List.foldl_map]
    rfl
  rw [hfold]
  by_cases h : qualPairs acts k = []
  · rw [if_pos (by rw [h, List.map_nil]),
      if_pos (show qualCount acts k = 0 from by unfold qualCount; rw [h]; rfl)]
  · rw [if_neg (fun hm => h (List.map_eq_nil.mp hm)),
      if_neg (show ¬ qualCount acts k = 0 from
        fun hc => h (List.length_eq_zero.mp hc))]
    rw [show qualCount acts k = (qualPairs acts k).length from rfl]

theorem extract_mem_keys (acts : List Activity) (k : String) :
    (k ∈ ((ordPairs acts).foldl consStep []).map Prod.fst)
      ↔ qualCount acts k ≠ 0 := by
  have key : assocLookup k ((ordPairs acts).foldl consStep []) = none
      ↔ qualCount acts k = 0 := by
    rw [extract_lookup]
    by_cases h : qualCount acts k = 0
    · simp [h]
    · simp [h]
  constructor
  · intro hmem h0
    exact (assocLookup_eq_none_iff k _).mp (key.mpr h0) hmem
  · intro h0
    by_contra hmem
    exact h0 (key.mp ((assocLookup_eq_none_iff k _).mpr hmem))


theorem splitSepOnce_cons (c : Char) (l : List Char) :
    splitSepOnce (c :: l)
      = if c = ':' then
          (match l with
           | ':' :: rest2 => some (([] : List Char), rest2)
           | _ => (splitSepOnce l).map (fun q => (c :: q.1, q.2)))
        else (splitSepOnce l).map (fun q => (c :: q.1, q.2)) := rfl

theorem splitSepOnce_append :
    ∀ (a b : List Char), a.all (fun c => c ≠ ':') = true →
      splitSepOnce (a ++ ':' :: ':' :: b) = some (a, b) := by
  intro a
  induction a with
  | nil =>
    intro b _
    rfl
  | cons c a2 ih =>
    intro b ha
    rw [List.all_cons, Bool.and_eq_true_iff] at ha
    have hc : ¬ (c = ':') := of_decide_eq_true ha.1
    rw [List.cons_append, splitSepOnce_cons, if_neg hc, ih b ha.2]
    rfl

theorem splitSepOnce_sepFree :
    ∀ b : List Char, b.all (fun c => c ≠ ':') = true →
      splitSepOnce b = none := by
  intro b
  induction b with
  | nil =>
    intro _
    rfl
  | cons c b2 ih =>
    intro hb
    rw [List.all_cons, Bool.and_eq_true_iff] at hb
    have hc : ¬ (c = ':') := of_decide_eq_true hb.1
    rw [splitSepOnce_cons, if_neg hc, ih hb.2]
    rfl

theorem splitKey_append (a b : String) (ha : sepFree a = true)
    (hb : sepFree b = true) : splitKey (a ++ "::" ++ b) = (a, b) := by
  unfold splitKey
  have hdata : (a ++ "::" ++ b).data = a.data ++ ':' :: ':' :: b.data := by
    rw [String.data_append, String.data_append, List.append_assoc]
    rfl
  rw [hdata, splitSepOnce_append a.data b.data ha]
  dsimp only
  rw [splitSepOnce_sepFree b.data hb]

theorem charListLt_cons (c d : Char) (cs ds : List Char) :
    charListLt (c :: cs) (d :: ds)
      = if c.toNat < d.toNat then true
        else if d.toNat < c.toNat then false
        else charListLt cs ds := rfl

theorem charListLt_asymm :
    ∀ l1 l2, charListLt l1 l2 = true → charListLt l2 l1 = false := by
  intro l1
  induction l1 with
  | nil =>
    intro l2 h
    cases l2 with
    | nil => exact Bool.noConfusion h
    | cons d ds => rfl
  | cons c cs ih =>
    intro l2 h
    cases l2 with
    | nil => exact Bool.noConfusion h
    | cons d ds =>
      rw [charListLt_cons] at h ⊢
      by_cases h1 : c.toNat < d.toNat
      · rw [if_neg (by omega : ¬ d.toNat < c.toNat), if_pos h1]
      · rw [if_neg h1] at h
        by_cases h2 : d.toNat < c.toNat
        · rw [if_pos h2] at h
          exact Bool.noConfusion h
        · rw [if_neg h2] at h
          rw [if_neg h2, if_neg h1, ih ds h]

theorem strLt_asymm (a b : String) (h : strLt a b = true) :
    strLt b a = false :=
  charListLt_asymm a.data b.data h

theorem pairKey_cases (a b : String) :
    pairKey a b = (a, b) ∨ pairKey a b = (b, a) := by
  unfold pairKey
  by_cases h : strLt b a = true
  · right
    rw [if_pos h]
  · left
    rw [if_neg h]

theorem pairKey_idem (a b : String) :
    pairKey (pairKey a b).1 (pairKey a b).2 = pairKey a b := by
  by_cases h : strLt b a = true
  · have h1 : pairKey a b = (b, a) := by
      unfold pairKey
      rw [if_pos h]
    rw [h1]
    show pairKey b a = (b, a)
    have hno : ¬ strLt a b = true := by
      intro hh
      rw [strLt_asymm b a h] at hh
      exact Bool.noConfusion hh
    unfold pairKey
    rw [if_neg hno]
  · have h1 : pairKey a b = (a, b) := by
      unfold pairKey
      rw [if_neg h]
    rw [h1]
    show pairKey a b = (a, b)
    exact h1

theorem pairKey_sepFree (a b : String) (ha : sepFree a = true)
    (hb : sepFree b = true) :
    sepFree (pairKey a b).1 = true ∧ sepFree (pairKey a b).2 = true := by
  rcases pairKey_cases a b with h | h
  · rw [h]
    exact ⟨ha, hb⟩
  · rw [h]
    exact ⟨hb, ha⟩

theorem splitKey_joinKey (a b : String) (ha : sepFree a = true)
    (hb : sepFree b = true) :
    splitKey (joinKey a b) = pairKey a b := by
  have hc := pairKey_sepFree a b ha hb
  unfold joinKey
  rw [splitKey_append _ _ hc.1 hc.2]

theorem joinKey_pairKey (a b : String) :
    joinKey (pairKey a b).1 (pairKey a b).2 = joinKey a b := by
  unfold joinKey
  rw [pairKey_idem]

theorem ordPairs_mem {α : Type} :
    ∀ (l : List α) (p : α × α), p ∈ ordPairs l → p.1 ∈ l ∧ p.2 ∈ l := by
  intro l
  induction l with
  | nil =>
    intro p hp
    cases hp
  | cons x xs ih =>
    intro p hp
    unfold ordPairs at hp
    rcases List.mem_append.mp hp with hm | hm
    · rcases List.mem_map.mp hm with ⟨y, hy, he⟩
      rw [← he]
      exact ⟨List.mem_cons_self x xs, List.mem_cons_of_mem x hy⟩
    · rcases ih p hm with ⟨h1, h2⟩
      exact ⟨List.mem_cons_of_mem x h1, List.mem_cons_of_mem x h2⟩

theorem mem_eq_of_nodup_keys {κ β : Type} [DecidableEq κ]
    (m : List (κ × β)) (hn : (m.map Prod.fst).Nodup)
    (e1 e2 : κ × β) (h1 : e1 ∈ m) (h2 : e2 ∈ m) (hk : e1.1 = e2.1) :
    e1 = e2 := by
  have l1 := assocLookup_of_mem_nodup m hn e1 h1
  have l2 := assocLookup_of_mem_nodup m hn e2 h2
  rw [hk] at l1
  rw [l2] at l1
  injection l1 with hv
  exact Prod.ext hk hv.symm

theorem extract_key_form (acts : List Activity) (k : String)
    (hk : k ∈ ((ordPairs acts).foldl consStep []).map Prod.fst) :
    ∃ x ∈ acts, ∃ y ∈ acts, k = joinKey x.noteId y.noteId := by
  have h0 := (extract_mem_keys acts k).mp hk
  have hne : qualPairs acts k ≠ [] := by
    intro he
    exact h0 (by unfold qualCount; rw [he]; rfl)
  rcases List.exists_mem_of_ne_nil _ hne with ⟨p, hp⟩
  unfold qualPairs at hp
  have hmem := List.mem_filter.mp hp
  have hkey : joinKey p.1.noteId p.2.noteId = k := by
    rcases Bool.and_eq_true_iff.mp hmem.2 with ⟨_, h2⟩
    exact of_decide_eq_true h2
  rcases ordPairs_mem acts p hmem.1 with ⟨hx, hy⟩
  exact ⟨p.1, hx, p.2, hy, hkey.symm⟩

theorem extract_key_roundtrip (acts : List Activity)
    (H : ∀ a ∈ acts, sepFree a.noteId = true) (k : String)
    (hk : k ∈ ((ordPairs acts).foldl consStep []).map Prod.fst) :
    joinKey (splitKey k).1 (splitKey k).2 = k := by
  rcases extract_key_form acts k hk with ⟨x, hx, y, hy, hke⟩
  subst hke
  rw [splitKey_joinKey x.noteId y.noteId (H x hx) (H y hy), joinKey_pairKey]

/-- C3 (amended): provided no note id contains the key-separator character
`:` (the code keys `accessPairs` by `[id1, id2].sort().join('::')` and
destructures the key back with `split('::')`, which collides and truncates
for ids containing the separator), `extractPatterns` yields exactly one
`PatternMatch` per distinct sorted pair of note ids among the unordered
activity pairs within five minutes, with `frequency` the number of
qualifying pairs for that key and `lastAccessed` the maximum of the epoch
default 0 and the EARLIER-INDEX activity's timestamp over those pairs (the
source maxes in `activity1.timestamp`, not the later of the two); on the
concrete window example one pattern `(n1, n2)` of frequency 1 results and
none involves `n3`. -/
theorem C3_pattern_extraction_amended :
    (∀ acts : List Activity, (∀ a ∈ acts, sepFree a.noteId = true) →
      ((extractPatterns acts).map
        (fun p => (p.sourceNote, p.targetNote))).Nodup) ∧
    (∀ acts : List Activity, (∀ a ∈ acts, sepFree a.noteId = true) →
      ∀ p ∈ extractPatterns acts,
        p.frequency = qualCount acts (joinKey p.sourceNote p.targetNote) ∧
        p.lastAccessed
          = qualLastAccess acts (joinKey p.sourceNote p.targetNote)) ∧
    (∀ acts : List Activity, (∀ a ∈ acts, sepFree a.noteId = true) →
      ∀ a b : String, sepFree a = true → sepFree b = true →
        ((∃ p ∈ extractPatterns acts,
            (p.sourceNote, p.targetNote) = pairKey a b)
          ↔ qualCount acts (joinKey a b) ≠ 0)) ∧
    (extractPatterns [⟨"n1", 0⟩, ⟨"n2", 240000⟩, ⟨"n3", 600000⟩]
      = [⟨"n1", "n2", 1, 0⟩]) := by
  refine ⟨?_, ?_, ?_, by decide⟩
  · intro acts H
    have hn := consFold_keys_nodup (ordPairs acts) [] (by simp)
    unfold extractPatterns
    rw [List.map_map]
    have hmn : ((ordPairs acts).foldl consStep []).Nodup :=
      List.Nodup.of_map Prod.fst hn
    refine List.Nodup.map_on ?_ hmn
    intro e1 h1 e2 h2 hse
    have hse2 : splitKey e1.1 = splitKey e2.1 := hse
    have hk1 : e1.1 ∈ ((ordPairs acts).foldl consStep []).map Prod.fst :=
      List.mem_map.mpr ⟨e1, h1, rfl⟩
    have hk2 : e2.1 ∈ ((ordPairs acts).foldl consStep []).map Prod.fst :=
      List.mem_map.mpr ⟨e2, h2, rfl⟩
    have r1 := extract_key_roundtrip acts H e1.1 hk1
    have r2 := extract_key_roundtrip acts H e2.1 hk2
    have hkeq : e1.1 = e2.1 := by
      rw [← r1, ← r2, hse2]
    exact mem_eq_of_nodup_keys _ hn e1 e2 h1 h2 hkeq
  · intro acts H p hp
    unfold extractPatterns at hp
    rcases List.mem_map.mp hp with ⟨e, he, hge⟩
    have hn := consFold_keys_nodup (ordPairs acts) [] (by simp)
    have hl := assocLookup_of_mem_nodup _ hn e he
    rw [extract_lookup] at hl
    have hk1 : e.1 ∈ ((ordPairs acts).foldl consStep []).map Prod.fst :=
      List.mem_map.mpr ⟨e, he, rfl⟩
    have hr := extract_key_roundtrip acts H e.1 hk1
    by_cases h0 : qualCount acts e.1 = 0
    · rw [if_pos h0] at hl
      cases hl
    · rw [if_neg h0] at hl
      injection hl with hl2
      have hfreq : e.2.1 = qualCount acts e.1 := by rw [← hl2]
      have hla : e.2.2 = qualLastAccess acts e.1 := by rw [← hl2]
      subst hge
      constructor
      · show e.2.1
          = qualCount acts (joinKey (splitKey e.1).1 (splitKey e.1).2)
        rw [hr]
        exact hfreq
      · show e.2.2
          = qualLastAccess acts (joinKey (splitKey e.1).1 (splitKey e.1).2)
        rw [hr]
        exact hla
  · intro acts H a b ha hb
    constructor
    · rintro ⟨p, hp, hk⟩
      unfold extractPatterns at hp
      rcases List.mem_map.mp hp with ⟨e, he, hge⟩
      have hk1 : e.1 ∈ ((ordPairs acts).foldl consStep []).map Prod.fst :=
        List.mem_map.mpr ⟨e, he, rfl⟩
      have hr := extract_key_roundtrip acts H e.1 hk1
      subst hge
      have hk2 : splitKey e.1 = pairKey a b := hk
      have hke : e.1 = joinKey a b := by
        rw [← hr, hk2, joinKey_pairKey]
      rw [← hke]
      exact (extract_mem_keys acts e.1).mp hk1
    · intro h0
      have hkm := (extract_mem_keys acts (joinKey a b)).mpr h0
      rcases List.mem_map.mp hkm with ⟨e, he, hke⟩
      refine ⟨⟨(splitKey e.1).1, (splitKey e.1).2, e.2.1, e.2.2⟩, ?_, ?_⟩
      · unfold extractPatterns
        exact List.mem_map.mpr ⟨e, he, rfl⟩
      · show ((splitKey e.1).1, (splitKey e.1).2) = pairKey a b
        rw [hke, splitKey_joinKey a b ha hb]

/-- Witness for C3 at the two-activity example with separator-free ids. -/
theorem C3_witness :
    (⟨"n1", "n2", 1, 0⟩ : PatternMatch).frequency
        = qualCount [⟨"n1", 0⟩, ⟨"n2", 240000⟩] (joinKey "n1" "n2") ∧
    (⟨"n1", "n2", 1, 0⟩ : PatternMatch).lastAccessed
        = qualLastAccess [⟨"n1", 0⟩, ⟨"n2", 240000⟩] (joinKey "n1" "n2") :=
  C3_pattern_extraction_amended.2.1 [⟨"n1", 0⟩, ⟨"n2", 240000⟩]
    (by decide) ⟨"n1", "n2", 1, 0⟩ (by decide)

/-- C3 (counterexample): (i) for activities `(n1, t0)` and `(n2, t0 + 4min)`
the code records `lastAccessed = 0` (= `max(epoch, activity1.timestamp)`),
not `240000`, the later of the two timestamps demanded by the claim; and
(ii) for note ids containing the separator `::`, distinct sorted id pairs
collide in the joined key and `split('::')` truncates to the first two
segments, so four same-timestamp activities yield six map entries whose
destructured `(source, target)` pairs include `(a, b)` three times —
refuting one `PatternMatch` per distinct sorted pair without the
separator-free proviso. -/
theorem C3_counterexample :
    (extractPatterns [⟨"n1", 0⟩, ⟨"n2", 240000⟩] = [⟨"n1", "n2", 1, 0⟩] ∧
      (0 : Int) ≠ 240000) ∧
    ((extractPatterns [⟨"a::b", 0⟩, ⟨"c", 0⟩, ⟨"a", 0⟩, ⟨"b", 0⟩]).map
        (fun p => (p.sourceNote, p.targetNote))
      = [("a", "b"), ("a", "a"), ("a", "b"), ("a", "c"), ("b", "c"),
         ("a", "b")] ∧
     ¬ ((extractPatterns [⟨"a::b", 0⟩, ⟨"c", 0⟩, ⟨"a", 0⟩, ⟨"b", 0⟩]).map
        (fun p => (p.sourceNote, p.targetNote))).Nodup) :=
  ⟨⟨by decide, by decide⟩, by decide, by decide⟩
